import Mathlib

/-!
Shallow embedding of the `errapids` post-processing code
(`src/errapids/metrics.py` and `src/errapids/viz.py`).

Pandas objects are modelled explicitly:
* an index label of a scenario-indexed frame is an `LVal`
  (pandas object labels here are either strings or integers);
* a (possibly multi-level) row key is a `Key` (a list of `LVal`);
* a single-column dataframe is a `DF` (level names plus keyed rows);
* missing entries created by `unstack` (pandas `NaN`) are `Option` values.

Row order: where pandas sorts group keys (groupby, unstack), this model
keeps first-occurrence order; every theorem below is stated through
membership and lookups, never through row positions.
-/

/-- Python's substring test `pat in s` for a nonempty pattern `pat`:
`pat` is a prefix of some suffix of `s`. -/
def subSeq (pat : List Char) : List Char → Bool
  | [] => pat.isEmpty
  | c :: rest => pat.isPrefixOf (c :: rest) || subSeq pat rest

/-- Python's substring test `pat in s` for a nonempty pattern `pat`. -/
def strContains (s pat : String) : Bool :=
  subSeq pat.toList s.toList

/-- `str.split(sep)` over character lists, for a nonempty separator, with a
fuel argument for structural recursion (fuel is at least the input length,
and every step consumes at least one character). -/
def splitSepAux (sep : List Char) : Nat → List Char → List Char → List (List Char)
  | 0, s, acc => [acc.reverse ++ s]
  | _ + 1, [], acc => [acc.reverse]
  | fuel + 1, c :: rest, acc =>
    if sep.isPrefixOf (c :: rest) then
      acc.reverse :: splitSepAux sep fuel ((c :: rest).drop sep.length) []
    else
      splitSepAux sep fuel rest (c :: acc)

/-- Python's `s.split(sep)` for a nonempty separator `sep`. -/
def strSplit (s sep : String) : List String :=
  (splitSepAux sep.toList s.toList.length s.toList []).map String.mk

/-- View of `Except` as a sum, to derive decidable equality. -/
def exceptToSum : Except ε α → ε ⊕ α
  | .error e => .inl e
  | .ok a => .inr a

instance [DecidableEq ε] [DecidableEq α] : DecidableEq (Except ε α) := fun a b =>
  decidable_of_iff (exceptToSum a = exceptToSum b)
    (by cases a <;> cases b <;> simp [exceptToSum])

@[simp]
theorem isOk_ok (a : α) : (Except.ok a : Except ε α).isOk = true := rfl

@[simp]
theorem isOk_error (e : ε) : (Except.error e : Except ε α).isOk = false := rfl

/-- A pandas object label: the scenario levels of this code base are strings
(`"mid"`, `"low"`, …) or integers (the prettified PV/battery percentages). -/
inductive LVal where
  | s (v : String)
  | i (v : Int)
deriving DecidableEq

/-- A row key of a (multi-)indexed pandas object: one `LVal` per level. -/
abbrev Key := List LVal

/-- First-occurrence deduplication, generalised over an accumulator of labels
already seen.  Pandas group keys are modelled in first-occurrence order. -/
def dedupAux [DecidableEq α] : List α → List α → List α
  | [], _ => []
  | a :: l, seen => if a ∈ seen then dedupAux l seen else a :: dedupAux l (a :: seen)

/-- First-occurrence deduplication of a list. -/
def dedupF [DecidableEq α] (l : List α) : List α := dedupAux l []

theorem mem_dedupAux [DecidableEq α] {a : α} {l : List α} :
    ∀ {seen : List α}, a ∈ dedupAux l seen ↔ a ∈ l ∧ a ∉ seen := by
  induction l with
  | nil => intro seen; simp [dedupAux]
  | cons b l ih =>
    intro seen
    by_cases hb : b ∈ seen
    · simp only [dedupAux, if_pos hb, ih, List.mem_cons]
      constructor
      · rintro ⟨h1, h2⟩; exact ⟨Or.inr h1, h2⟩
      · rintro ⟨h1 | h1, h2⟩
        · exact absurd hb (h1 ▸ h2)
        · exact ⟨h1, h2⟩
    · simp only [dedupAux, if_neg hb, List.mem_cons, ih]
      constructor
      · rintro (rfl | ⟨h1, h2⟩)
        · exact ⟨Or.inl rfl, hb⟩
        · refine ⟨Or.inr h1, fun hc => h2 ?_⟩
          simp [hc]
      · rintro ⟨rfl | h1, h2⟩
        · exact Or.inl rfl
        · by_cases hba : a = b
          · exact Or.inl hba
          · refine Or.inr ⟨h1, ?_⟩
            simp [hba, h2]

theorem mem_dedupF [DecidableEq α] {a : α} {l : List α} :
    a ∈ dedupF l ↔ a ∈ l := by
  simp [dedupF, mem_dedupAux]

theorem nodup_dedupAux [DecidableEq α] :
    ∀ (l seen : List α), (dedupAux l seen).Nodup ∧ ∀ a ∈ seen, a ∉ dedupAux l seen := by
  intro l
  induction l with
  | nil => intro seen; simp [dedupAux]
  | cons b l ih =>
    intro seen
    by_cases hb : b ∈ seen
    · simp only [dedupAux, if_pos hb]
      exact (ih seen)
    · simp only [dedupAux, if_neg hb]
      refine ⟨List.nodup_cons.mpr ⟨?_, (ih (b :: seen)).1⟩, ?_⟩
      · exact (ih (b :: seen)).2 b (List.mem_cons_self b seen)
      · intro a ha hmem
        rcases List.mem_cons.mp hmem with rfl | hmem
        · exact hb ha
        · exact (ih (b :: seen)).2 a (List.mem_cons_of_mem _ ha) hmem

theorem nodup_dedupF [DecidableEq α] (l : List α) : (dedupF l).Nodup :=
  (nodup_dedupAux l []).1

/-! ## `errapids.metrics`: index parsing (`Metrics.__idx__`)

A pandas `Index` is either a plain index (a name and string labels) or a
`MultiIndex` (level names and tuple labels).  Cells of a `MultiIndex` built by
`Index.str.split(…, expand=True)` can be `NaN` (when a label has fewer parts
than the deepest one), hence `Option String` cells. -/

/-- A plain pandas `Index`: a name and string labels. -/
structure PlainIndex where
  name : String
  labels : List String
deriving DecidableEq

/-- A pandas `MultiIndex`: level names and one tuple of cells per label. -/
structure MultiIndexL where
  names : List String
  labels : List (List (Option String))
deriving DecidableEq

/-- A pandas index, plain or multi-level. -/
inductive PIdx where
  | plain (p : PlainIndex)
  | multi (m : MultiIndexL)
deriving DecidableEq

/-- `Index.swaplevel()` with default arguments: swap the last two levels. -/
def swapLast2 : List α → List α
  | [a, b] => [b, a]
  | a :: rest => a :: swapLast2 rest
  | [] => []

/-- `"…".split("::")` on one label. -/
def splitParts (s : String) : List String := strSplit s "::"

/-- Number of levels of `Index.str.split("::", expand=True)`: the deepest
label decides; shorter labels are padded with `NaN`. -/
def nlevelsOf (labels : List String) : Nat :=
  (labels.map fun l => (splitParts l).length).foldr max 0

/-- Pad a split label with `NaN` cells up to the number of levels. -/
def padTo (n : Nat) (l : List String) : List (Option String) :=
  l.map some ++ List.replicate (n - l.length) none

/-- `Metrics.__idx__` (`metrics.py`, lines 65–91).  `Except` carries the
`ValueError` message of the corresponding `raise` (for the `MultiIndex`
branch: `list.index` and the `names` setter raise `ValueError` too). -/
def Metrics.idx : PIdx → Except String PIdx
  | .multi m =>
    -- `_idx.names.index("carriers") < _idx.names.index("techs")`
    if "carriers" ∈ m.names then
      if "techs" ∈ m.names then
        let m' := if m.names.indexOf "carriers" < m.names.indexOf "techs" then
          MultiIndexL.mk (swapLast2 m.names) (m.labels.map swapLast2) else m
        -- `_idx.names = ["technology", "carrier"]`
        if m'.names.length = 2 then
          .ok (.multi ⟨["technology", "carrier"], m'.labels⟩)
        else .error "Length of names must match number of levels"
      else .error "'techs' is not in list"
    else .error "'carriers' is not in list"
  | .plain p =>
    if p.name = "carriers" then .ok (.plain ⟨"carrier", p.labels⟩)
    else if strContains p.name "loc_tech" then
      let idx := p.labels.map fun l => padTo (nlevelsOf p.labels) (splitParts l)
      if strContains p.name "carrier" then
        if nlevelsOf p.labels = 3 then .ok (.multi ⟨["region", "technology", "carrier"], idx⟩)
        else .error (p.name ++ ": unsupported index")
      else
        if nlevelsOf p.labels = 2 then .ok (.multi ⟨["region", "technology"], idx⟩)
        else .error (p.name ++ ": unsupported index")
    else .error (p.name ++ ": unsupported index")

theorem swapLast2_length : ∀ (l : List α), (swapLast2 l).length = l.length
  | [] => rfl
  | [_] => rfl
  | [_, _] => rfl
  | a :: b :: c :: t => by
    have ih := swapLast2_length (b :: c :: t)
    show (a :: swapLast2 (b :: c :: t)).length = _
    simp only [List.length_cons, ih]

theorem nlevelsOf_cons (a : String) (l : List String) :
    nlevelsOf (a :: l) = max (splitParts a).length (nlevelsOf l) := rfl

/-- If every label splits into exactly `n` parts, `str.split(expand=True)`
produces exactly `n` levels. -/
theorem nlevelsOf_const : ∀ {labels : List String} {n : Nat}, labels ≠ [] →
    (∀ l ∈ labels, (splitParts l).length = n) → nlevelsOf labels = n
  | [], _, hne, _ => absurd rfl hne
  | [a], n, _, h => by
    rw [nlevelsOf_cons, h a (by simp)]
    show max n (nlevelsOf []) = n
    simp [nlevelsOf]
  | a :: b :: t, n, _, h => by
    have ih := @nlevelsOf_const (b :: t) n (by simp)
      (fun x hx => h x (List.mem_cons_of_mem _ hx))
    rw [nlevelsOf_cons, h a (by simp), ih, Nat.max_self]

theorem padTo_exact {l : List String} {n : Nat} (h : l.length = n) :
    padTo n l = l.map some := by
  simp [padTo, h]

/-- C1: for a plain index whose name contains `"loc_tech"`, with every label
splitting on `"::"` into three parts when the name contains `"carrier"` and
two parts otherwise, `Metrics.__idx__` returns the multi-level index whose
levels are named `region`/`technology`(/`carrier`) and whose labels are the
tuples of split components, in order. -/
theorem metrics_idx_splits_loc_tech (p : PlainIndex)
    (hloc : strContains p.name "loc_tech" = true)
    (hne : p.labels ≠ [])
    (hparts : ∀ l ∈ p.labels,
      (splitParts l).length = if strContains p.name "carrier" then 3 else 2) :
    Metrics.idx (.plain p) = .ok (.multi
      ⟨if strContains p.name "carrier" then ["region", "technology", "carrier"]
        else ["region", "technology"],
       p.labels.map fun l => (splitParts l).map some⟩) := by
  have hnc : p.name ≠ "carriers" := by
    intro h
    rw [h] at hloc
    exact absurd hloc (by decide)
  cases hcar : strContains p.name "carrier" with
  | true =>
    rw [hcar] at hparts
    simp only [if_true] at hparts
    have hn : nlevelsOf p.labels = 3 := nlevelsOf_const hne hparts
    simp only [Metrics.idx, if_neg hnc, hloc, if_true, hcar, hn, if_pos rfl, hcar]
    rw [List.map_congr_left fun l hl => padTo_exact (hparts l hl)]
  | false =>
    rw [hcar] at hparts
    have hparts2 : ∀ l ∈ p.labels, (splitParts l).length = 2 := by
      intro l hl
      simpa using hparts l hl
    have hn : nlevelsOf p.labels = 2 := nlevelsOf_const hne hparts2
    simp only [Metrics.idx, if_neg hnc, hloc, if_true, hcar, hn, if_pos rfl]
    rw [List.map_congr_left fun l hl => padTo_exact (hparts2 l hl)]
    simp

/-- Witness for C1 at a concrete two-level index. -/
theorem metrics_idx_splits_loc_tech_witness :
    Metrics.idx (.plain ⟨"loc_techs_energy_cap", ["GBR::pv", "FRA::wind"]⟩) =
      .ok (.multi ⟨["region", "technology"],
        [[some "GBR", some "pv"], [some "FRA", some "wind"]]⟩) := by
  have h := metrics_idx_splits_loc_tech ⟨"loc_techs_energy_cap", ["GBR::pv", "FRA::wind"]⟩
    (by decide) (by decide) (by decide)
  rw [h]
  decide

/-- Counterexample for C9: a `MultiIndex` input whose level names do not
contain `"carriers"` makes `Metrics.__idx__` raise `ValueError`
(from `FrozenList.index`), contradicting "a MultiIndex input … never raises". -/
theorem metrics_idx_multi_raises_cex :
    Metrics.idx (.multi ⟨["region", "technology"], [[some "a", some "b"]]⟩) =
      .error "'carriers' is not in list" := by decide

/-- C9 (amended): `Metrics.__idx__` raises `ValueError`
* on a plain index not named `"carriers"`, exactly when the name does not
  contain `"loc_tech"`, or splitting the labels on `"::"` yields a number of
  levels different from 3 (names containing `"carrier"`) resp. 2 (others);
* on a plain index named `"carriers"`, never;
* on a `MultiIndex`, exactly when it does not have two levels whose names
  include both `"carriers"` and `"techs"`. -/
theorem metrics_idx_raises_iff (i : PIdx) :
    (Metrics.idx i).isOk = false ↔
      (match i with
        | .plain p => p.name ≠ "carriers" ∧ (strContains p.name "loc_tech" = false ∨
            nlevelsOf p.labels ≠ if strContains p.name "carrier" then 3 else 2)
        | .multi m =>
            ¬(m.names.length = 2 ∧ "carriers" ∈ m.names ∧ "techs" ∈ m.names)) := by
  cases i with
  | plain p =>
    by_cases hnc : p.name = "carriers"
    · simp [Metrics.idx, hnc, Except.isOk]
    · cases hloc : strContains p.name "loc_tech" with
      | false => simp [Metrics.idx, hnc, hloc, Except.isOk]
      | true =>
        cases hcar : strContains p.name "carrier" with
        | true =>
          by_cases hn : nlevelsOf p.labels = 3 <;>
            simp [Metrics.idx, hnc, hloc, hcar, hn, Except.isOk]
        | false =>
          by_cases hn : nlevelsOf p.labels = 2 <;>
            simp [Metrics.idx, hnc, hloc, hcar, hn, Except.isOk]
  | multi m =>
    by_cases h1 : "carriers" ∈ m.names
    · by_cases h2 : "techs" ∈ m.names
      · have hlen : (if m.names.indexOf "carriers" < m.names.indexOf "techs" then
            MultiIndexL.mk (swapLast2 m.names) (m.labels.map swapLast2)
            else m).names.length = m.names.length := by
          split
          · exact swapLast2_length m.names
          · rfl
        by_cases hl : m.names.length = 2
        · simp only [Metrics.idx, if_pos h1, if_pos h2]
          rw [hlen]  -- note: rewrites inside the remaining `if`
          simp [hl, h1, h2, Except.isOk]
        · simp only [Metrics.idx, if_pos h1, if_pos h2]
          rw [hlen]
          simp [hl, Except.isOk]
      · simp [Metrics.idx, h1, h2, Except.isOk]
    · simp [Metrics.idx, h1, Except.isOk]

/-! ## `errapids.viz`: scenario baselines and marginalisation -/

/-- A `baselines` entry: the scalar baseline value of a regular scenario
axis, or the list of pinned scenario names of a meta (grouped) scenario. -/
inductive BVal where
  | scalar (v : LVal)
  | group (scs : List String)
deriving DecidableEq

/-- `baselines` (`viz.py`, lines 30–38), in dict order. -/
def baselines : List (String × BVal) :=
  [("heating", .scalar (.s "mid")),
   ("EV", .scalar (.s "low")),
   ("PV", .scalar (.i 100)),
   ("battery", .scalar (.i 100)),
   ("demand", .group ["PV", "battery"]),
   ("cost", .group ["heating", "EV"]),
   ("all", .group [])]

/-- The keys of `baselines`, in dict order. -/
def baselineKeys : List String := baselines.map Prod.fst

/-- `baselines[sc]`, as an `Option` (callers below only use present keys). -/
def baselineOf (sc : String) : Option BVal :=
  (baselines.find? fun p => p.1 == sc).map Prod.snd

/-- `_isgrouped` (`viz.py`, lines 41–49):
`isinstance(baselines[scenario], list)`. -/
def _isgrouped (sc : String) : Bool :=
  match baselineOf sc with
  | some (.group _) => true
  | _ => false

/-- The scalar baseline value of a non-grouped scenario axis. -/
def scalarBaseline (sc : String) : Option LVal :=
  match baselineOf sc with
  | some (.scalar v) => some v
  | _ => none

/-- The pinned scenario names computed by `marginalise` (`viz.py`, 125–129):
the scenarios listed under a grouped scenario, or every other non-grouped
scenario of a regular one. -/
def pinsOf (scenario : String) : List String :=
  if _isgrouped scenario then
    match baselineOf scenario with
    | some (.group l) => l
    | _ => []
  else
    (baselines.filter fun p => p.1 != scenario && !_isgrouped p.1).map Prod.fst

/-- `unpinned` of `marginalise` (`viz.py`, 135–137): the baseline values of
the non-grouped scenarios that were not pinned, in dict order. -/
def unpinnedOf (scenario : String) : List LVal :=
  ((baselines.filter fun p => !(pinsOf scenario).contains p.1 && !_isgrouped p.1).filterMap
    fun p => scalarBaseline p.1 : List LVal)

/-- A single-column pandas DataFrame with a (multi-)level row index: level
names, rows of key and value, and the column name.  A level name referenced
by a query is assumed present (pandas raises otherwise, which no claim
exercises): a missing level matches no row. -/
structure DF where
  names : List String
  rows : List (Key × ℚ)
  colname : String
deriving DecidableEq

/-- The value of a named index level in a row key. -/
def levelVal (names : List String) (key : Key) (n : String) : Option LVal :=
  key.get? (names.indexOf n)

/-- The query `" & ".join(f"{sc} == {baselines[sc]!r}" for sc in pins)` of
`marginalise` (`viz.py`, 131–132): keep the rows whose pinned levels carry
their baseline values. -/
def queryPins (df : DF) (pins : List String) : DF :=
  { df with rows := df.rows.filter fun r =>
      pins.all fun sc =>
        match scalarBaseline sc with
        | some v => levelVal df.names r.1 sc == some v
        | none => false }

/-- Remove the listed positions from a list (pandas `droplevel`). -/
def dropPositions (ps : List Nat) (l : List α) : List α :=
  (l.enum.filter fun x => !ps.contains x.1).map Prod.snd

/-- `df.index.droplevel(lvls)` for a list of level names (`viz.py`, 133). -/
def droplevels (df : DF) (lvls : List String) : DF :=
  let ps := lvls.map fun n => df.names.indexOf n
  { names := dropPositions ps df.names,
    rows := df.rows.map fun r => (dropPositions ps r.1, r.2),
    colname := df.colname }

/-- The pinning step of `marginalise` (`viz.py`, 130–133): keep the rows at
the pinned baselines and drop the pinned levels (`if pins:` skips both when
nothing is pinned). -/
def pinnedDf (df : DF) (scenario : String) : DF :=
  let pins := pinsOf scenario
  if pins.isEmpty then df else droplevels (queryPins df pins) pins

/-- The distinct row keys remaining after unstacking the first `k` index
levels (the row index of `df.unstack(list(range(k)))`), in first-occurrence
order. -/
def suffixKeys (rows : List (Key × ℚ)) (k : Nat) : List Key :=
  dedupF (rows.map fun r => r.1.drop k)

/-- One row of `df.unstack(list(range(k)))`: every present entry for a row
key, as unstacked column key (the first `k` levels) with its value. -/
def groupVals (rows : List (Key × ℚ)) (k : Nat) (sfx : Key) : List (Key × ℚ) :=
  rows.filterMap fun r => if r.1.drop k == sfx then some (r.1.take k, r.2) else none

/-- `x - y` with `NaN` (`none`) propagation. -/
def osub : Option ℚ → Option ℚ → Option ℚ
  | some x, some y => some (x - y)
  | _, _ => none

/-- `abs` with `NaN` propagation. -/
def oabs (a : Option ℚ) : Option ℚ := a.map fun x => |x|

/-- Row-wise `np.min` over the present entries (`Series.min` skips `NaN`;
`none` only for an all-`NaN` row). -/
def rmin : List ℚ → Option ℚ
  | [] => none
  | x :: l =>
    match rmin l with
    | none => some x
    | some y => some (min x y)

/-- Row-wise `np.max` over the present entries (`Series.max` skips `NaN`). -/
def rmax : List ℚ → Option ℚ
  | [] => none
  | x :: l =>
    match rmax l with
    | none => some x
    | some y => some (max x y)

/-- Select the column `key` of an unstacked row (the first matching entry;
unstacking duplicate keys would raise in pandas). -/
def lookupVal (g : List (Key × ℚ)) (key : Key) : Option ℚ :=
  (g.find? fun p => p.1 == key).map Prod.snd

/-- The `<colname>, errlo, errhi` triple of one unstacked row (`viz.py`,
139–148): the baseline column, and the absolute deviations of the row-wise
minimum and maximum from it. -/
def bandOf (g : List (Key × ℚ)) (unpinned : Key) : Option ℚ × Option ℚ × Option ℚ :=
  let baseline := lookupVal g unpinned
  (baseline, oabs (osub (rmin (g.map Prod.snd)) baseline),
    oabs (osub (rmax (g.map Prod.snd)) baseline))

/-- Python exception raised by `marginalise`: the explicit `ValueError` for
an unknown scenario, the `KeyError` when the baseline column is absent after
unstacking, or the error from unstacking more levels than the index has. -/
inductive MErr where
  | unknownScenario
  | missingBaseline
  | unstackRange
  | emptyFrame
  | stackMissing
  | regionKey
  | metricKey
  | assertFailed
deriving DecidableEq

/-- Result of `marginalise`: a dataframe (columns `<colname>, errlo, errhi`)
when index levels remain after unstacking, else a series with that index. -/
inductive MOut where
  | frame (names : List String) (colnames : List String)
      (rows : List (Key × (Option ℚ × Option ℚ × Option ℚ)))
  | ser (index : List String) (vals : ℚ × ℚ × ℚ)
deriving DecidableEq

/-- The rows of the dataframe built by the `df.ndim > 1` branch of
`marginalise` (`viz.py`, 141–145): one row per unstacked row key, holding its
baseline/`errlo`/`errhi` triple. -/
def marginalFrameRows (rows0 : List (Key × ℚ)) (k : Nat) (unpinned : Key) :
    List (Key × (Option ℚ × Option ℚ × Option ℚ)) :=
  (suffixKeys rows0 k).map fun sfx => (sfx, bandOf (groupVals rows0 k sfx) unpinned)

/-- `marginalise` (`viz.py`, lines 98–148). -/
def marginalise (df : DF) (scenario : String) : Except MErr MOut :=
  -- `colname = df.columns[0]`
  let colname := df.colname
  if !baselineKeys.contains scenario then .error .unknownScenario
  else
    let dfq := pinnedDf df scenario
    let unpinned := unpinnedOf scenario
    let k := unpinned.length
    if k < dfq.names.length then
      -- index levels remain after `df.unstack(...)`: a DataFrame
      if dfq.rows.any fun r => r.1.take k == unpinned then
        .ok (.frame (dfq.names.drop k) [colname, "errlo", "errhi"]
          (marginalFrameRows dfq.rows k unpinned))
      else .error .missingBaseline
    else if k = dfq.names.length then
      -- every level was unstacked: a Series
      match lookupVal (dfq.rows.map fun r => (r.1.take k, r.2)) unpinned with
      | some b =>
        match rmin (dfq.rows.map Prod.snd), rmax (dfq.rows.map Prod.snd) with
        | some mn, some mx => .ok (.ser [colname, "errlo", "errhi"] (b, |mn - b|, |mx - b|))
        | _, _ => .error .missingBaseline  -- unreachable: the column found above is an entry
      | none => .error .missingBaseline
    else .error .unstackRange

/-- C8: the scenario membership check of `marginalise` raises `ValueError`
exactly when the scenario is not a key of `baselines`; it never raises for
the seven known scenario names. -/
theorem marginalise_unknown_iff (df : DF) (scenario : String) :
    (marginalise df scenario = .error .unknownScenario ↔ scenario ∉ baselineKeys) ∧
    (scenario ∈ ["heating", "EV", "PV", "battery", "demand", "cost", "all"] →
      marginalise df scenario ≠ .error .unknownScenario) := by
  have hkeys : baselineKeys = ["heating", "EV", "PV", "battery", "demand", "cost", "all"] := by
    decide
  have hbranch : scenario ∈ baselineKeys →
      marginalise df scenario ≠ .error .unknownScenario := by
    intro hmem
    have hc : (!baselineKeys.contains scenario) = false := by simp [hmem]
    unfold marginalise
    rw [hc]
    simp only [Bool.false_eq_true, if_false]
    split
    · split <;> simp
    · split
      · split <;> (try split) <;> simp
      · simp
  refine ⟨⟨fun h => fun hmem => hbranch hmem h, fun h => ?_⟩, fun h => hbranch (by rw [hkeys]; exact h)⟩
  have hc : (!baselineKeys.contains scenario) = true := by simp [h]
  unfold marginalise
  rw [hc]
  simp

/-- Witness for C8: the check never fires for the known name `"demand"` and
fires for an unknown name. -/
theorem marginalise_unknown_iff_witness :
    marginalise ⟨["heating"], [([.s "mid"], 1)], "cap"⟩ "unknown" = .error .unknownScenario ∧
    marginalise ⟨["heating"], [([.s "mid"], 1)], "cap"⟩ "demand" ≠ .error .unknownScenario := by
  constructor
  · exact (marginalise_unknown_iff ⟨["heating"], [([.s "mid"], 1)], "cap"⟩ "unknown").1.mpr
      (by decide)
  · exact (marginalise_unknown_iff ⟨["heating"], [([.s "mid"], 1)], "cap"⟩ "demand").2
      (by decide)

/-! ### The seven scenarios: pins, unpinned baselines, and the pinning step -/

/-- The four scenario-override axes, in `baselines` dict order (they are the
leading index levels of every frame produced by `ScenarioGroups`). -/
def scenarioAxes : List String := ["heating", "EV", "PV", "battery"]

theorem pinsOf_heating : pinsOf "heating" = ["EV", "PV", "battery"] := by decide

theorem pinsOf_EV : pinsOf "EV" = ["heating", "PV", "battery"] := by decide

theorem pinsOf_PV : pinsOf "PV" = ["heating", "EV", "battery"] := by decide

theorem pinsOf_battery : pinsOf "battery" = ["heating", "EV", "PV"] := by decide

theorem pinsOf_demand : pinsOf "demand" = ["PV", "battery"] := by decide

theorem pinsOf_cost : pinsOf "cost" = ["heating", "EV"] := by decide

theorem pinsOf_all : pinsOf "all" = [] := by decide

theorem dropPositions_append (ps : List Nat) (l₁ l₂ : List α)
    (h : ∀ p ∈ ps, p < l₁.length) :
    dropPositions ps (l₁ ++ l₂) = dropPositions ps l₁ ++ l₂ := by
  unfold dropPositions
  rw [List.enum_append, List.filter_append, List.map_append]
  congr 1
  rw [List.filter_eq_self.mpr, List.enumFrom_map_snd]
  intro x hx
  have hge := (List.mem_enumFrom hx).1
  have hnotin : x.1 ∉ ps := fun hm => absurd (h _ hm) (by omega)
  simpa using hnotin

/-- Index level names after the `droplevel` of the pinning step, when the
scenario axes lead the index: only leading axes are dropped. -/
theorem droplevels_names (df : DF) (factors : List String)
    (hn : df.names = scenarioAxes ++ factors) (pins : List String)
    (hps : ∀ p ∈ pins.map fun n => (scenarioAxes ++ factors).indexOf n, p < 4) :
    (droplevels (queryPins df pins) pins).names =
      dropPositions (pins.map fun n => (scenarioAxes ++ factors).indexOf n)
        scenarioAxes ++ factors := by
  show dropPositions (pins.map fun n => (queryPins df pins).names.indexOf n)
      (queryPins df pins).names = _
  have hq : (queryPins df pins).names = scenarioAxes ++ factors := hn
  rw [hq]
  exact dropPositions_append _ scenarioAxes factors hps

theorem rmin_cons (x : ℚ) (l : List ℚ) :
    rmin (x :: l) = match rmin l with
      | none => some x
      | some y => some (min x y) := rfl

theorem rmax_cons (x : ℚ) (l : List ℚ) :
    rmax (x :: l) = match rmax l with
      | none => some x
      | some y => some (max x y) := rfl

/-- `np.min` of a nonempty list bounds every entry from below. -/
theorem rmin_spec : ∀ (l : List ℚ), l ≠ [] → ∃ mn, rmin l = some mn ∧ ∀ x ∈ l, mn ≤ x
  | [], h => absurd rfl h
  | [x], _ => ⟨x, rfl, by simp⟩
  | x :: y :: t, _ => by
    obtain ⟨mn, hmn, hle⟩ := rmin_spec (y :: t) (by simp)
    refine ⟨min x mn, ?_, ?_⟩
    · rw [rmin_cons, hmn]
    · intro z hz
      rcases List.mem_cons.mp hz with rfl | hz
      · exact min_le_left _ _
      · exact le_trans (min_le_right _ _) (hle z hz)

/-- `np.max` of a nonempty list bounds every entry from above. -/
theorem rmax_spec : ∀ (l : List ℚ), l ≠ [] → ∃ mx, rmax l = some mx ∧ ∀ x ∈ l, x ≤ mx
  | [], h => absurd rfl h
  | [x], _ => ⟨x, rfl, by simp⟩
  | x :: y :: t, _ => by
    obtain ⟨mx, hmx, hle⟩ := rmax_spec (y :: t) (by simp)
    refine ⟨max x mx, ?_, ?_⟩
    · rw [rmax_cons, hmx]
    · intro z hz
      rcases List.mem_cons.mp hz with rfl | hz
      · exact le_max_left _ _
      · exact le_trans (hle z hz) (le_max_right _ _)

/-- A found unstacked column is an entry of the row. -/
theorem lookupVal_mem {g : List (Key × ℚ)} {key : Key} {v : ℚ}
    (h : lookupVal g key = some v) : (key, v) ∈ g := by
  unfold lookupVal at h
  cases hf : g.find? fun p => p.1 == key with
  | none => rw [hf] at h; cases h
  | some p =>
    rw [hf] at h
    have hv : p.2 = v := by simpa using h
    have hp := List.mem_of_find?_eq_some hf
    have hpk : p.1 = key := by simpa using List.find?_some hf
    rw [← hv, ← hpk]
    simpa using hp

/-- A present column key is found. -/
theorem lookupVal_isSome {g : List (Key × ℚ)} {key : Key}
    (h : ∃ p ∈ g, p.1 = key) : ∃ v, lookupVal g key = some v := by
  obtain ⟨p, hp, hk⟩ := h
  unfold lookupVal
  have hsome : (g.find? fun q => q.1 == key).isSome := by
    rw [List.find?_isSome]
    exact ⟨p, hp, by simp [hk]⟩
  obtain ⟨q, hq⟩ := Option.isSome_iff_exists.mp hsome
  exact ⟨q.2, by rw [hq]; rfl⟩

/-- Membership in an unstacked row. -/
theorem mem_groupVals {rows : List (Key × ℚ)} {k : Nat} {sfx : Key} {p : Key × ℚ} :
    p ∈ groupVals rows k sfx ↔ ∃ r ∈ rows, r.1.drop k = sfx ∧ p = (r.1.take k, r.2) := by
  unfold groupVals
  rw [List.mem_filterMap]
  constructor
  · rintro ⟨r, hr, hf⟩
    by_cases hd : r.1.drop k = sfx
    · rw [if_pos (by simp [hd])] at hf
      exact ⟨r, hr, hd, by simpa using hf.symm⟩
    · rw [if_neg (by simp [hd])] at hf
      cases hf
  · rintro ⟨r, hr, hd, rfl⟩
    exact ⟨r, hr, by rw [if_pos (by simp [hd])]⟩

/-- Membership in the unstacked row index. -/
theorem mem_suffixKeys {rows : List (Key × ℚ)} {k : Nat} {sfx : Key} :
    sfx ∈ suffixKeys rows k ↔ ∃ r ∈ rows, r.1.drop k = sfx := by
  simp [suffixKeys, mem_dedupF]

/-- The shape of the index after the pinning step, for each of the seven
scenarios: some leading scenario axes remain (as many as there are unpinned
baseline values), followed by the untouched non-scenario levels. -/
theorem pinnedDf_names_shape (df : DF) (factors : List String)
    (hn : df.names = scenarioAxes ++ factors) (s : String) (hs : s ∈ baselineKeys) :
    ∃ rem : List String, (pinnedDf df s).names = rem ++ factors ∧
      rem.length = (unpinnedOf s).length := by
  have hmem : s = "heating" ∨ s = "EV" ∨ s = "PV" ∨ s = "battery" ∨
      s = "demand" ∨ s = "cost" ∨ s = "all" := by
    simpa [baselineKeys, baselines] using hs
  rcases hmem with rfl | rfl | rfl | rfl | rfl | rfl | rfl
  · refine ⟨["heating"], ?_, by decide⟩
    have hmapped : (["EV", "PV", "battery"].map fun n =>
        (scenarioAxes ++ factors).indexOf n) = [1, 2, 3] := rfl
    simp only [pinnedDf, pinsOf_heating]
    rw [if_neg (by decide)]
    rw [droplevels_names df factors hn _ (by rw [hmapped]; decide), hmapped]
    rfl
  · refine ⟨["EV"], ?_, by decide⟩
    have hmapped : (["heating", "PV", "battery"].map fun n =>
        (scenarioAxes ++ factors).indexOf n) = [0, 2, 3] := rfl
    simp only [pinnedDf, pinsOf_EV]
    rw [if_neg (by decide)]
    rw [droplevels_names df factors hn _ (by rw [hmapped]; decide), hmapped]
    rfl
  · refine ⟨["PV"], ?_, by decide⟩
    have hmapped : (["heating", "EV", "battery"].map fun n =>
        (scenarioAxes ++ factors).indexOf n) = [0, 1, 3] := rfl
    simp only [pinnedDf, pinsOf_PV]
    rw [if_neg (by decide)]
    rw [droplevels_names df factors hn _ (by rw [hmapped]; decide), hmapped]
    rfl
  · refine ⟨["battery"], ?_, by decide⟩
    have hmapped : (["heating", "EV", "PV"].map fun n =>
        (scenarioAxes ++ factors).indexOf n) = [0, 1, 2] := rfl
    simp only [pinnedDf, pinsOf_battery]
    rw [if_neg (by decide)]
    rw [droplevels_names df factors hn _ (by rw [hmapped]; decide), hmapped]
    rfl
  · refine ⟨["heating", "EV"], ?_, by decide⟩
    have hmapped : (["PV", "battery"].map fun n =>
        (scenarioAxes ++ factors).indexOf n) = [2, 3] := rfl
    simp only [pinnedDf, pinsOf_demand]
    rw [if_neg (by decide)]
    rw [droplevels_names df factors hn _ (by rw [hmapped]; decide), hmapped]
    rfl
  · refine ⟨["PV", "battery"], ?_, by decide⟩
    have hmapped : (["heating", "EV"].map fun n =>
        (scenarioAxes ++ factors).indexOf n) = [0, 1] := rfl
    simp only [pinnedDf, pinsOf_cost]
    rw [if_neg (by decide)]
    rw [droplevels_names df factors hn _ (by rw [hmapped]; decide), hmapped]
    rfl
  · refine ⟨scenarioAxes, ?_, by decide⟩
    simp only [pinnedDf, pinsOf_all]
    rw [if_pos (by decide)]
    exact hn

/-- The DataFrame branch of `marginalise`, under the conditions that select
it: a known scenario, remaining index levels, and a present baseline column. -/
theorem marginalise_frame_eq (df : DF) (s : String)
    (hmem : s ∈ baselineKeys)
    (hklt : (unpinnedOf s).length < (pinnedDf df s).names.length)
    (hany : ((pinnedDf df s).rows.any fun r =>
      r.1.take (unpinnedOf s).length == unpinnedOf s) = true) :
    marginalise df s = .ok (.frame
      ((pinnedDf df s).names.drop (unpinnedOf s).length)
      [df.colname, "errlo", "errhi"]
      (marginalFrameRows (pinnedDf df s).rows (unpinnedOf s).length (unpinnedOf s))) := by
  have hcontains : (!baselineKeys.contains s) = false := by simp [hmem]
  simp only [marginalise]
  rw [hcontains]
  simp only [Bool.false_eq_true, if_false]
  rw [if_pos hklt, if_pos hany]

/-- C3: on a frame whose leading index levels are the four scenario axes,
with non-scenario levels present and a baseline entry in every unstacked row,
`marginalise` returns a dataframe with exactly the columns
`<original column>`, `errlo`, `errhi`; in every row the first column is the
value at the baseline of the swept scenario axes, `errlo` and `errhi` are the
absolute differences between the swept minimum resp. maximum and that
baseline, both are the distances of a band that spans exactly the swept
minimum and maximum: `value − errlo = min` and `value + errhi = max`. -/
theorem marginalise_band (df : DF) (factors : List String) (s : String)
    (hs : s ∈ baselineKeys)
    (hn : df.names = scenarioAxes ++ factors)
    (hf : factors ≠ [])
    (hrows : (pinnedDf df s).rows ≠ [])
    (hb : ∀ sfx ∈ suffixKeys (pinnedDf df s).rows (unpinnedOf s).length,
      ∃ p ∈ groupVals (pinnedDf df s).rows (unpinnedOf s).length sfx,
        p.1 = unpinnedOf s) :
    ∃ rows, marginalise df s = .ok (.frame factors [df.colname, "errlo", "errhi"] rows) ∧
      ∀ q ∈ rows,
        ∃ v mn mx,
          lookupVal (groupVals (pinnedDf df s).rows (unpinnedOf s).length q.1)
            (unpinnedOf s) = some v ∧
          rmin ((groupVals (pinnedDf df s).rows (unpinnedOf s).length q.1).map Prod.snd)
            = some mn ∧
          rmax ((groupVals (pinnedDf df s).rows (unpinnedOf s).length q.1).map Prod.snd)
            = some mx ∧
          q.2 = (some v, some |mn - v|, some |mx - v|) ∧
          v - |mn - v| = mn ∧ v + |mx - v| = mx := by
  obtain ⟨rem, hrem, hremlen⟩ := pinnedDf_names_shape df factors hn s hs
  have hklt : (unpinnedOf s).length < (pinnedDf df s).names.length := by
    rw [hrem, List.length_append, ← hremlen]
    have := List.length_pos.mpr hf
    omega
  have hany : ((pinnedDf df s).rows.any fun r =>
      r.1.take (unpinnedOf s).length == unpinnedOf s) = true := by
    obtain ⟨r0, hr0⟩ : ∃ r0, r0 ∈ (pinnedDf df s).rows := by
      cases hrowseq : (pinnedDf df s).rows with
      | nil => exact absurd hrowseq hrows
      | cons a t => exact ⟨a, List.mem_cons_self a t⟩
    have hsfx : r0.1.drop (unpinnedOf s).length ∈
        suffixKeys (pinnedDf df s).rows (unpinnedOf s).length :=
      mem_suffixKeys.mpr ⟨r0, hr0, rfl⟩
    obtain ⟨p, hp, hpk⟩ := hb _ hsfx
    obtain ⟨r, hr, hrd, hpe⟩ := mem_groupVals.mp hp
    rw [List.any_eq_true]
    refine ⟨r, hr, ?_⟩
    have htake : r.1.take (unpinnedOf s).length = unpinnedOf s := by
      rw [hpe] at hpk
      simpa using hpk
    simp [htake]
  refine ⟨marginalFrameRows (pinnedDf df s).rows (unpinnedOf s).length (unpinnedOf s),
    ?_, ?_⟩
  · rw [marginalise_frame_eq df s hs hklt hany, hrem, ← hremlen, List.drop_left]
  · intro q hq
    obtain ⟨sfx, hsfx, rfl⟩ := List.mem_map.mp hq
    obtain ⟨p, hp, hpk⟩ := hb sfx hsfx
    have hgne : groupVals (pinnedDf df s).rows (unpinnedOf s).length sfx ≠ [] := by
      intro h
      rw [h] at hp
      cases hp
    obtain ⟨v, hv⟩ := lookupVal_isSome ⟨p, hp, hpk⟩
    have hvmem := lookupVal_mem hv
    have hvals : v ∈ (groupVals (pinnedDf df s).rows (unpinnedOf s).length sfx).map
        Prod.snd := List.mem_map.mpr ⟨_, hvmem, rfl⟩
    have hmapne : (groupVals (pinnedDf df s).rows (unpinnedOf s).length sfx).map
        Prod.snd ≠ [] := fun h => hgne (List.map_eq_nil_iff.mp h)
    obtain ⟨mn, hmn, hmnle⟩ := rmin_spec _ hmapne
    obtain ⟨mx, hmx, hmxle⟩ := rmax_spec _ hmapne
    have h1 : mn ≤ v := hmnle v hvals
    have h2 : v ≤ mx := hmxle v hvals
    refine ⟨v, mn, mx, hv, hmn, hmx, ?_, ?_, ?_⟩
    · show bandOf (groupVals (pinnedDf df s).rows (unpinnedOf s).length sfx)
        (unpinnedOf s) = _
      unfold bandOf
      rw [hv, hmn, hmx]
      rfl
    · rw [abs_of_nonpos (by linarith)]
      ring
    · rw [abs_of_nonneg (by linarith)]
      ring

/-! ### C2: which axes does `marginalise` really pin? -/

/-- The baseline value of the `j`-th scenario axis (`j < 4`). -/
def baselineValAt (j : Nat) : LVal :=
  ((scenarioAxes.get? j).bind scalarBaseline).getD (.s "")

/-- Spec-side restatement of C2 for a regular scenario axis `i`, directly on
the input frame: keep exactly the rows whose three other scenario axes carry
their baseline values, drop those pinned levels, and sweep only axis `i`:
group the kept rows by the non-scenario levels and take, per group, the
baseline/`errlo`/`errhi` band over the swept values of axis `i`. -/
def sweepOneAxis (df : DF) (i : Nat) : List (Key × (Option ℚ × Option ℚ × Option ℚ)) :=
  let others := (List.range 4).filter fun j => j != i
  let kept := df.rows.filter fun r => others.all fun j => r.1.get? j == some (baselineValAt j)
  let sfxs := dedupF (kept.map fun r => r.1.drop 4)
  sfxs.map fun fk =>
    (fk, bandOf
      (kept.filterMap fun r =>
        if r.1.drop 4 == fk then some ((r.1.drop i).take 1, r.2) else none)
      [baselineValAt i])

theorem exists_four {m : Nat} : ∀ (l : Key), l.length = 4 + m →
    ∃ a b c d t, l = a :: b :: c :: d :: t ∧ (t : Key).length = m
  | [], h => by simp only [List.length_nil] at h; omega
  | [_], h => by simp only [List.length_cons, List.length_nil] at h; omega
  | [_, _], h => by simp only [List.length_cons, List.length_nil] at h; omega
  | [_, _, _], h => by simp only [List.length_cons, List.length_nil] at h; omega
  | a :: b :: c :: d :: t, h =>
    ⟨a, b, c, d, t, rfl, by simp only [List.length_cons] at h; omega⟩

/-- Core of the amended C2, for one regular scenario axis `s` at position
`i`: `marginalise` pins exactly the other three axes at their baselines and
sweeps axis `i` alone.  The per-scenario facts (pinned names and their index
positions) are hypotheses, discharged once per axis below. -/
theorem marginalise_scalar_core (df : DF) (factors : List String) (s : String)
    (i : Nat) (pins : List String) (ps : List Nat)
    (hn : df.names = scenarioAxes ++ factors)
    (hlen : ∀ r ∈ df.rows, r.1.length = df.names.length)
    (hf : factors ≠ [])
    (hsB : s ∈ baselineKeys)
    (hi4 : i < 4)
    (hpins : pinsOf s = pins)
    (hpinsne : pins.isEmpty = false)
    (hup : unpinnedOf s = [baselineValAt i])
    (hmap : (pins.map fun n => (scenarioAxes ++ factors).indexOf n) = ps)
    (hdropKey : ∀ (v : Key), v.length = 4 → ∀ t : Key,
      dropPositions ps (v ++ t) = (v.drop i).take 1 ++ t)
    (hpred : ∀ r : Key × ℚ,
      (pins.all fun sc =>
        match scalarBaseline sc with
        | some v => levelVal (scenarioAxes ++ factors) r.1 sc == some v
        | none => false) =
      (((List.range 4).filter fun j => j != i).all fun j =>
        r.1.get? j == some (baselineValAt j)))
    (hbase : ∃ r ∈ df.rows, r.1.take 4 =
      [baselineValAt 0, baselineValAt 1, baselineValAt 2, baselineValAt 3]) :
    marginalise df s = .ok (.frame factors [df.colname, "errlo", "errhi"]
      (sweepOneAxis df i)) := by
  obtain ⟨rem, hrem, hremlen⟩ := pinnedDf_names_shape df factors hn s hsB
  have hklt : (unpinnedOf s).length < (pinnedDf df s).names.length := by
    rw [hrem, List.length_append, ← hremlen]
    have := List.length_pos.mpr hf
    omega
  have hpd : (pinnedDf df s).rows = (df.rows.filter fun r =>
      pins.all fun sc =>
        match scalarBaseline sc with
        | some v => levelVal (scenarioAxes ++ factors) r.1 sc == some v
        | none => false).map fun r => (dropPositions ps r.1, r.2) := by
    simp only [pinnedDf, hpins]
    rw [if_neg (by simp [hpinsne])]
    simp only [droplevels, queryPins, hn, hmap]
  have hkept : (df.rows.filter fun r =>
      pins.all fun sc =>
        match scalarBaseline sc with
        | some v => levelVal (scenarioAxes ++ factors) r.1 sc == some v
        | none => false)
      = df.rows.filter fun r => ((List.range 4).filter fun j => j != i).all fun j =>
          r.1.get? j == some (baselineValAt j) :=
    List.filter_congr fun r _ => hpred r
  have hshape : ∀ r ∈ (df.rows.filter fun r =>
        ((List.range 4).filter fun j => j != i).all fun j =>
          r.1.get? j == some (baselineValAt j)),
      ∃ (v t : Key), r.1 = v ++ t ∧ v.length = 4 ∧
        dropPositions ps r.1 = (v.drop i).take 1 ++ t ∧ r.1.drop 4 = t := by
    intro r hr
    have hrmem := List.mem_of_mem_filter hr
    have hl := hlen r hrmem
    rw [hn, List.length_append] at hl
    obtain ⟨a, b, c, d, t, hsh, _⟩ := exists_four r.1 (by simpa using hl)
    refine ⟨[a, b, c, d], t, by simpa using hsh, rfl, ?_, ?_⟩
    · rw [hsh]
      exact hdropKey [a, b, c, d] rfl t
    · rw [hsh]
      rfl
  have hany : ((pinnedDf df s).rows.any fun r =>
      r.1.take (unpinnedOf s).length == unpinnedOf s) = true := by
    obtain ⟨r, hr, htake⟩ := hbase
    have hget : ∀ j, j < 4 → r.1.get? j = some (baselineValAt j) := by
      intro j hj
      have h1 : r.1.get? j = (r.1.take 4).get? j := (List.get?_take hj).symm
      rw [h1, htake]
      interval_cases j <;> rfl
    have hPr : (((List.range 4).filter fun j => j != i).all fun j =>
        r.1.get? j == some (baselineValAt j)) = true := by
      simp only [List.all_eq_true]
      intro j hj
      have hj4 : j < 4 := by
        have := List.mem_of_mem_filter hj
        simpa using this
      simp only [beq_iff_eq]
      exact hget j hj4
    have hrk : r ∈ df.rows.filter fun r =>
        ((List.range 4).filter fun j => j != i).all fun j =>
          r.1.get? j == some (baselineValAt j) :=
      List.mem_filter.mpr ⟨hr, hPr⟩
    obtain ⟨v, t, hv, hv4, hdp, _⟩ := hshape r hrk
    have hvB : v = [baselineValAt 0, baselineValAt 1, baselineValAt 2, baselineValAt 3] := by
      rw [← htake, hv]
      exact (List.take_left' hv4).symm
    rw [List.any_eq_true, hpd, hkept]
    refine ⟨(dropPositions ps r.1, r.2), List.mem_map.mpr ⟨r, hrk, rfl⟩, ?_⟩
    rw [hup]
    have hlen1 : ((v.drop i).take 1).length = 1 := by
      rw [List.length_take, List.length_drop, hv4]
      omega
    show ((dropPositions ps r.1).take ([baselineValAt i] : Key).length
      == ([baselineValAt i] : Key)) = true
    have : ([baselineValAt i] : Key).length = 1 := rfl
    rw [this, hdp, List.take_left' hlen1, hvB]
    interval_cases i <;> rfl
  rw [marginalise_frame_eq df s hsB hklt hany]
  have hnamesdrop : (pinnedDf df s).names.drop (unpinnedOf s).length = factors := by
    rw [hrem, ← hremlen, List.drop_left]
  rw [hnamesdrop]
  have hrows : marginalFrameRows (pinnedDf df s).rows (unpinnedOf s).length (unpinnedOf s)
      = sweepOneAxis df i := by
    rw [hpd, hkept, hup]
    show marginalFrameRows _ 1 [baselineValAt i] = _
    unfold marginalFrameRows
    simp only [sweepOneAxis]
    have hsfx : suffixKeys ((df.rows.filter fun r =>
        ((List.range 4).filter fun j => j != i).all fun j =>
          r.1.get? j == some (baselineValAt j)).map fun r => (dropPositions ps r.1, r.2)) 1
        = dedupF ((df.rows.filter fun r =>
            ((List.range 4).filter fun j => j != i).all fun j =>
              r.1.get? j == some (baselineValAt j)).map fun r => r.1.drop 4) := by
      unfold suffixKeys
      rw [List.map_map]
      congr 1
      refine List.map_congr_left ?_
      intro r hr
      obtain ⟨v, t, _, hv4, hdp, hd4⟩ := hshape r hr
      show (dropPositions ps r.1).drop 1 = r.1.drop 4
      have hlen1 : ((v.drop i).take 1).length = 1 := by
        rw [List.length_take, List.length_drop, hv4]
        omega
      rw [hdp, hd4, List.drop_left' hlen1]
    have hgrp : ∀ fk, groupVals ((df.rows.filter fun r =>
        ((List.range 4).filter fun j => j != i).all fun j =>
          r.1.get? j == some (baselineValAt j)).map fun r => (dropPositions ps r.1, r.2)) 1 fk
        = (df.rows.filter fun r =>
            ((List.range 4).filter fun j => j != i).all fun j =>
              r.1.get? j == some (baselineValAt j)).filterMap fun r =>
            if r.1.drop 4 == fk then some ((r.1.drop i).take 1, r.2) else none := by
      intro fk
      unfold groupVals
      rw [List.filterMap_map]
      refine List.filterMap_congr ?_
      intro r hr
      obtain ⟨v, t, hv, hv4, hdp, hd4⟩ := hshape r hr
      have hlen1 : ((v.drop i).take 1).length = 1 := by
        rw [List.length_take, List.length_drop, hv4]
        omega
      show (if (dropPositions ps r.1).drop 1 == fk
          then some ((dropPositions ps r.1).take 1, r.2) else none) = _
      have hdi : (r.1.drop i).take 1 = (v.drop i).take 1 := by
        rw [hv, List.drop_append_of_le_length (by rw [hv4]; omega)]
        exact List.take_append_of_le_length (by rw [List.length_drop, hv4]; omega)
      rw [hdp, List.drop_left' hlen1, List.take_left' hlen1, hd4, hdi]
    rw [hsfx]
    refine List.map_congr_left ?_
    intro fk _
    rw [hgrp fk]
  rw [hrows]

theorem lt_length_of_mem {ps : List Nat} (h : ∀ p ∈ ps, p < 4) (l : Key)
    (hl : l.length = 4) : ∀ p ∈ ps, p < l.length := by
  rw [hl]
  exact h

/-- C2 (amended): for a regular scenario axis `s` (heating, EV, PV, battery),
`marginalise(df, s)` keeps exactly the rows whose three OTHER scenario axes
carry their baseline values (heating `"mid"`, EV `"low"`, PV `100`,
battery `100`), drops those pinned levels, and computes the band by sweeping
only axis `s` — all-but-one axis held at baseline; for the grouped scenarios
the pinned axes are the ones listed in their `baselines` entry instead:
`demand` pins PV and battery, `cost` pins heating and EV, `all` pins
nothing. -/
theorem marginalise_pins_scalar (df : DF) (factors : List String) (s : String)
    (hs : s ∈ scenarioAxes)
    (hn : df.names = scenarioAxes ++ factors)
    (hdisj : ∀ a ∈ scenarioAxes, a ∉ factors)
    (hlen : ∀ r ∈ df.rows, r.1.length = df.names.length)
    (hf : factors ≠ [])
    (hbase : ∃ r ∈ df.rows, r.1.take 4 =
      [baselineValAt 0, baselineValAt 1, baselineValAt 2, baselineValAt 3]) :
    marginalise df s = .ok (.frame factors [df.colname, "errlo", "errhi"]
      (sweepOneAxis df (scenarioAxes.indexOf s))) ∧
    pinsOf "demand" = ["PV", "battery"] ∧ pinsOf "cost" = ["heating", "EV"] ∧
    pinsOf "all" = [] := by
  refine ⟨?_, by decide, by decide, by decide⟩
  have hmem : s = "heating" ∨ s = "EV" ∨ s = "PV" ∨ s = "battery" := by
    simpa [scenarioAxes] using hs
  rcases hmem with rfl | rfl | rfl | rfl
  · rw [show scenarioAxes.indexOf "heating" = 0 from rfl]
    refine marginalise_scalar_core df factors "heating" 0 ["EV", "PV", "battery"] [1, 2, 3]
      hn hlen hf (by decide) (by decide) pinsOf_heating (by decide) (by decide)
      rfl ?_ (fun r => rfl) hbase
    intro v hv t
    obtain ⟨a, b, c, d, t0, rfl, ht0⟩ := @exists_four 0 v (by omega)
    have ht0e : t0 = [] := List.length_eq_zero.mp ht0
    subst ht0e
    rw [dropPositions_append [1, 2, 3] [a, b, c, d] t
      (lt_length_of_mem (by decide) [a, b, c, d] rfl)]
    rfl
  · rw [show scenarioAxes.indexOf "EV" = 1 from rfl]
    refine marginalise_scalar_core df factors "EV" 1 ["heating", "PV", "battery"] [0, 2, 3]
      hn hlen hf (by decide) (by decide) pinsOf_EV (by decide) (by decide)
      rfl ?_ (fun r => rfl) hbase
    intro v hv t
    obtain ⟨a, b, c, d, t0, rfl, ht0⟩ := @exists_four 0 v (by omega)
    have ht0e : t0 = [] := List.length_eq_zero.mp ht0
    subst ht0e
    rw [dropPositions_append [0, 2, 3] [a, b, c, d] t
      (lt_length_of_mem (by decide) [a, b, c, d] rfl)]
    rfl
  · rw [show scenarioAxes.indexOf "PV" = 2 from rfl]
    refine marginalise_scalar_core df factors "PV" 2 ["heating", "EV", "battery"] [0, 1, 3]
      hn hlen hf (by decide) (by decide) pinsOf_PV (by decide) (by decide)
      rfl ?_ (fun r => rfl) hbase
    intro v hv t
    obtain ⟨a, b, c, d, t0, rfl, ht0⟩ := @exists_four 0 v (by omega)
    have ht0e : t0 = [] := List.length_eq_zero.mp ht0
    subst ht0e
    rw [dropPositions_append [0, 1, 3] [a, b, c, d] t
      (lt_length_of_mem (by decide) [a, b, c, d] rfl)]
    rfl
  · rw [show scenarioAxes.indexOf "battery" = 3 from rfl]
    refine marginalise_scalar_core df factors "battery" 3 ["heating", "EV", "PV"] [0, 1, 2]
      hn hlen hf (by decide) (by decide) pinsOf_battery (by decide) (by decide)
      rfl ?_ (fun r => rfl) hbase
    intro v hv t
    obtain ⟨a, b, c, d, t0, rfl, ht0⟩ := @exists_four 0 v (by omega)
    have ht0e : t0 = [] := List.length_eq_zero.mp ht0
    subst ht0e
    rw [dropPositions_append [0, 1, 2] [a, b, c, d] t
      (lt_length_of_mem (by decide) [a, b, c, d] rfl)]
    rfl

/-- Counterexample for C2 as stated: for the `baselines` key `"demand"`,
`marginalise` does NOT hold all scenario axes other than the analysed one at
their baselines — two frames that differ only in the value of a row with
heating = `"hi"` (off baseline) marginalise to different results, so the
heating axis is swept, not pinned. -/
theorem marginalise_demand_sweeps_heating_cex :
    marginalise ⟨["heating", "EV", "PV", "battery", "region"],
      [([.s "mid", .s "low", .i 100, .i 100, .s "r"], 1),
       ([.s "hi", .s "low", .i 100, .i 100, .s "r"], 5)], "cap"⟩ "demand" ≠
    marginalise ⟨["heating", "EV", "PV", "battery", "region"],
      [([.s "mid", .s "low", .i 100, .i 100, .s "r"], 1),
       ([.s "hi", .s "low", .i 100, .i 100, .s "r"], 7)], "cap"⟩ "demand" := by
  have hA : marginalise ⟨["heating", "EV", "PV", "battery", "region"],
      [([.s "mid", .s "low", .i 100, .i 100, .s "r"], 1),
       ([.s "hi", .s "low", .i 100, .i 100, .s "r"], 5)], "cap"⟩ "demand" =
      .ok (.frame ["region"] ["cap", "errlo", "errhi"]
        [([.s "r"], (some 1, some 0, some 4))]) := by
    simp [marginalise, marginalFrameRows, pinnedDf, queryPins, droplevels, dropPositions,
      suffixKeys, dedupF, dedupAux, groupVals, bandOf, lookupVal, rmin, rmax, osub, oabs,
      levelVal, unpinnedOf, pinsOf, baselineKeys, baselines, _isgrouped,
      baselineOf, scalarBaseline, List.filter, List.indexOf, List.findIdx,
      List.findIdx.go, List.enum, List.enumFrom, min_def, max_def]
    norm_num
  have hB : marginalise ⟨["heating", "EV", "PV", "battery", "region"],
      [([.s "mid", .s "low", .i 100, .i 100, .s "r"], 1),
       ([.s "hi", .s "low", .i 100, .i 100, .s "r"], 7)], "cap"⟩ "demand" =
      .ok (.frame ["region"] ["cap", "errlo", "errhi"]
        [([.s "r"], (some 1, some 0, some 6))]) := by
    simp [marginalise, marginalFrameRows, pinnedDf, queryPins, droplevels, dropPositions,
      suffixKeys, dedupF, dedupAux, groupVals, bandOf, lookupVal, rmin, rmax, osub, oabs,
      levelVal, unpinnedOf, pinsOf, baselineKeys, baselines, _isgrouped,
      baselineOf, scalarBaseline, List.filter, List.indexOf, List.findIdx,
      List.findIdx.go, List.enum, List.enumFrom, min_def, max_def]
    norm_num
  rw [hA, hB]
  intro h
  simp only [Except.ok.injEq, MOut.frame.injEq, List.cons.injEq, Prod.mk.injEq,
    Option.some.injEq] at h
  norm_num at h

/-- Witness for the amended C2 at a concrete frame and the heating axis. -/
theorem marginalise_pins_scalar_witness :
    marginalise ⟨["heating", "EV", "PV", "battery", "region"],
      [([.s "mid", .s "low", .i 100, .i 100, .s "r"], 2),
       ([.s "hi", .s "low", .i 100, .i 100, .s "r"], 3)], "cap"⟩ "heating" =
      .ok (.frame ["region"] ["cap", "errlo", "errhi"]
        (sweepOneAxis ⟨["heating", "EV", "PV", "battery", "region"],
          [([.s "mid", .s "low", .i 100, .i 100, .s "r"], 2),
           ([.s "hi", .s "low", .i 100, .i 100, .s "r"], 3)], "cap"⟩
          (scenarioAxes.indexOf "heating"))) :=
  (marginalise_pins_scalar ⟨["heating", "EV", "PV", "battery", "region"],
      [([.s "mid", .s "low", .i 100, .i 100, .s "r"], 2),
       ([.s "hi", .s "low", .i 100, .i 100, .s "r"], 3)], "cap"⟩ ["region"] "heating"
    (by decide) (by decide) (by decide) (by decide) (by decide) (by decide)).1

/-- Witness for C3 at the same concrete frame. -/
theorem marginalise_band_witness :
    ∃ rows, marginalise ⟨["heating", "EV", "PV", "battery", "region"],
      [([.s "mid", .s "low", .i 100, .i 100, .s "r"], 2),
       ([.s "hi", .s "low", .i 100, .i 100, .s "r"], 3)], "cap"⟩ "heating" =
      .ok (.frame ["region"] ["cap", "errlo", "errhi"] rows) := by
  obtain ⟨rows, h1, -⟩ := marginalise_band ⟨["heating", "EV", "PV", "battery", "region"],
      [([.s "mid", .s "low", .i 100, .i 100, .s "r"], 2),
       ([.s "hi", .s "low", .i 100, .i 100, .s "r"], 3)], "cap"⟩ ["region"] "heating"
    (by decide) (by decide) (by decide) (by decide) (by decide)
  exact ⟨rows, h1⟩

/-! ## `errapids.metrics`: `fraction_by_level` -/

/-- A pandas Series with a (multi-)level index, as consumed by
`fraction_by_level`: level names and keyed rational values. -/
structure PSeries where
  names : List String
  rows : List (Key × ℚ)
deriving DecidableEq

/-- `arr.groupby(level=list(range(k))).sum()`: group by the first `k` index
levels and sum.  Pandas sorts group keys; the model keeps first-occurrence
order (the claims are stated for lexicographically sorted input, where the
two orders agree). -/
def groupbySum (rows : List (Key × ℚ)) (k : Nat) : List (Key × ℚ) :=
  (dedupF (rows.map fun r => r.1.take k)).map fun g =>
    (g, ((rows.filter fun r => r.1.take k == g).map Prod.snd).sum)

/-- Lexicographic comparison of character lists (string order). -/
def charListLE : List Char → List Char → Bool
  | [], _ => true
  | _ :: _, [] => false
  | a :: as, b :: bs => if a = b then charListLE as bs else decide (a.toNat < b.toNat)

/-- An order on labels, for the lexicographic-sortedness hypothesis of C10
(pandas lexsorts only comparably-typed levels; integers are placed before
strings here, and the hypothesis is not otherwise consumed). -/
def lvalLE : LVal → LVal → Bool
  | .s a, .s b => charListLE a.toList b.toList
  | .i a, .i b => a ≤ b
  | .i _, .s _ => true
  | .s _, .i _ => false

/-- Lexicographic order on row keys. -/
def keyLE : Key → Key → Bool
  | [], _ => true
  | _ :: _, [] => false
  | a :: as, b :: bs => if a = b then keyLE as bs else lvalLE a b

/-- `fraction_by_level` (`metrics.py`, lines 153–161).  The
`align(…, method="ffill")` of the `k+1`-level group sums against the
`k`-level parent sums joins on the common leading level names and broadcasts
each parent total over its children; it is modelled as a parent lookup.
`list.index` raises `ValueError` for an absent string level name; `groupby`
raises `ValueError` ("No group keys passed!") when `_lvl = 0` makes its
level list empty, and when a level position exceeds the index depth. -/
def fraction_by_level (arr : PSeries) (lvl : Nat ⊕ String) : Except String PSeries :=
  match (match lvl with
         | .inr s => if s ∈ arr.names then Except.ok (arr.names.indexOf s)
             else Except.error "is not in list"
         | .inl n => Except.ok n : Except String Nat) with
  | .error e => .error e
  | .ok _lvl =>
    if arr.names.length < _lvl + 1 then .error "level number out of levels"
    else if _lvl = 0 then .error "No group keys passed!"
    else
      let numerator := groupbySum arr.rows (_lvl + 1)
      let denominator := groupbySum arr.rows _lvl
      .ok ⟨arr.names.take (_lvl + 1),
        numerator.map fun p =>
          (p.1, p.2 / (lookupVal denominator (p.1.take _lvl)).getD 0)⟩

/-- The first entry found under an exact-match predicate is the key itself. -/
theorem find?_beq_self [BEq κ] [LawfulBEq κ] {l : List κ} {key : κ} (h : key ∈ l) :
    (l.find? fun g => g == key) = some key := by
  induction l with
  | nil => cases h
  | cons b t ih =>
    rcases List.mem_cons.mp h with rfl | hm
    · simp [List.find?_cons]
    · by_cases hb : b = key
      · subst hb
        simp [List.find?_cons]
      · have hbf : (b == key) = false := by
          rw [beq_eq_false_iff_ne]
          exact hb
        simp only [List.find?_cons, hbf]
        exact ih hm

/-- Looking up a present group key in a groupby-sum gives that group's sum. -/
theorem lookupVal_groupbySum {rows : List (Key × ℚ)} {k : Nat} {key : Key}
    (h : key ∈ dedupF (rows.map fun r => r.1.take k)) :
    lookupVal (groupbySum rows k) key =
      some ((rows.filter fun r => r.1.take k == key).map Prod.snd).sum := by
  unfold lookupVal groupbySum
  rw [List.find?_map]
  have hcomp : ((fun (p : Key × ℚ) => p.1 == key) ∘ fun g =>
      ((g, ((rows.filter fun r => r.1.take k == g).map Prod.snd).sum) : Key × ℚ)) =
      fun g => g == key := rfl
  rw [hcomp, find?_beq_self h]
  rfl

theorem sum_ite_mem [DecidableEq κ] :
    ∀ (keys : List κ), keys.Nodup → ∀ (a : κ), a ∈ keys → ∀ (x : ℚ) (S : κ → ℚ),
    (keys.map fun g => if a = g then x + S g else S g).sum = x + (keys.map S).sum := by
  intro keys
  induction keys with
  | nil => intro _ a ha; cases ha
  | cons b t ih =>
    intro hnd a ha x S
    rcases List.mem_cons.mp ha with rfl | hm
    · rw [List.map_cons, if_pos rfl, List.sum_cons]
      have hnotin : a ∉ t := (List.nodup_cons.mp hnd).1
      have hrest : (t.map fun g => if a = g then x + S g else S g) = t.map S :=
        List.map_congr_left fun g hg => if_neg (by rintro rfl; exact hnotin hg)
      rw [hrest, List.map_cons, List.sum_cons]
      ring
    · have hba : a ≠ b := by rintro rfl; exact (List.nodup_cons.mp hnd).1 hm
      rw [List.map_cons, if_neg hba, List.sum_cons,
        ih (List.nodup_cons.mp hnd).2 a hm x S, List.map_cons, List.sum_cons]
      ring

/-- Summing fiberwise over pairwise-distinct group keys that cover every row
recovers the total sum. -/
theorem sum_fiber [BEq κ] [LawfulBEq κ] [DecidableEq κ] (keys : List κ) (hnd : keys.Nodup)
    (f : Key × ℚ → κ) :
    ∀ (rows : List (Key × ℚ)), (∀ r ∈ rows, f r ∈ keys) →
    (keys.map fun g => ((rows.filter fun r => f r == g).map Prod.snd).sum).sum
      = (rows.map Prod.snd).sum := by
  intro rows
  induction rows with
  | nil => intro _; simp
  | cons r rest ih =>
    intro hall
    have hfr : f r ∈ keys := hall r (List.mem_cons_self r rest)
    have hrest := ih fun q hq => hall q (List.mem_cons_of_mem _ hq)
    have hsplit : ∀ g : κ, (((r :: rest).filter fun q => f q == g).map Prod.snd).sum =
        (if f r = g then r.2 + ((rest.filter fun q => f q == g).map Prod.snd).sum
         else ((rest.filter fun q => f q == g).map Prod.snd).sum) := by
      intro g
      by_cases hg : f r = g
      · rw [if_pos hg, List.filter_cons_of_pos (by simp [hg]), List.map_cons, List.sum_cons]
      · rw [if_neg hg, List.filter_cons_of_neg (by simp [hg])]
    calc (keys.map fun g => (((r :: rest).filter fun q => f q == g).map Prod.snd).sum).sum
        = (keys.map fun g =>
            if f r = g then r.2 + ((rest.filter fun q => f q == g).map Prod.snd).sum
            else ((rest.filter fun q => f q == g).map Prod.snd).sum).sum :=
          congrArg List.sum (List.map_congr_left fun g _ => hsplit g)
      _ = r.2 + (keys.map fun g =>
            ((rest.filter fun q => f q == g).map Prod.snd).sum).sum :=
          sum_ite_mem keys hnd (f r) hfr r.2 _
      _ = r.2 + (rest.map Prod.snd).sum := by rw [hrest]
      _ = ((r :: rest).map Prod.snd).sum := by rw [List.map_cons, List.sum_cons]

theorem sum_map_div {κ : Type} (l : List κ) (f : κ → ℚ) (c : ℚ) :
    (l.map fun g => f g / c).sum = (l.map f).sum / c := by
  have h1 : (l.map fun g => f g / c) = l.map fun g => f g * c⁻¹ := by
    simp [div_eq_mul_inv]
  rw [h1, div_eq_mul_inv]
  simpa using List.sum_map_mul_right l f c⁻¹

/-- Counterexample for C10: at level position 0 (a valid level position with
no preceding levels, whose "parent total" is the grand total),
`fraction_by_level` raises `ValueError` from `groupby(level=[])` instead of
returning the fractions the claim promises, even on a lexicographically
sorted series with nonzero totals. -/
theorem fraction_by_level_lvl0_cex :
    fraction_by_level ⟨["region", "technology"],
      [([.s "a", .s "x"], 1), ([.s "a", .s "y"], 3)]⟩ (Sum.inl 0) =
      .error "No group keys passed!" := by decide

/-- C10 (amended): for a series with a lexicographically sorted multi-level
index and a level position `1 ≤ lvl < nlevels` whose parent group totals are
all nonzero, `fraction_by_level` returns each level-`lvl` group sum divided
by its parent group total, and within any one parent group the returned
fractions sum to 1. -/
theorem fraction_by_level_fractions (arr : PSeries) (_lvl : Nat)
    (hsorted : List.Chain' (fun p q => keyLE p.1 q.1 = true) arr.rows)
    (hlvl1 : 1 ≤ _lvl) (hlvln : _lvl + 1 ≤ arr.names.length)
    (hnz : ∀ par ∈ dedupF (arr.rows.map fun r => r.1.take _lvl),
      ((arr.rows.filter fun r => r.1.take _lvl == par).map Prod.snd).sum ≠ 0) :
    ∃ out, fraction_by_level arr (Sum.inl _lvl) = .ok out ∧
      (∀ q ∈ out.rows,
        q.2 = ((arr.rows.filter fun r => r.1.take (_lvl + 1) == q.1).map Prod.snd).sum /
          ((arr.rows.filter fun r => r.1.take _lvl == q.1.take _lvl).map Prod.snd).sum) ∧
      ∀ par ∈ dedupF (arr.rows.map fun r => r.1.take _lvl),
        ((out.rows.filter fun q => q.1.take _lvl == par).map Prod.snd).sum = 1 := by
  have htt : ∀ g : Key, (g.take (_lvl + 1)).take _lvl = g.take _lvl := by
    intro g
    rw [List.take_take]
    congr 1
    omega
  have hparmem : ∀ g ∈ dedupF (arr.rows.map fun r => r.1.take (_lvl + 1)),
      g.take _lvl ∈ dedupF (arr.rows.map fun r => r.1.take _lvl) := by
    intro g hg
    obtain ⟨r, hr, rfl⟩ := List.mem_map.mp (mem_dedupF.mp hg)
    rw [mem_dedupF]
    exact List.mem_map.mpr ⟨r, hr, (htt r.1).symm ▸ rfl⟩
  refine ⟨⟨arr.names.take (_lvl + 1),
    (groupbySum arr.rows (_lvl + 1)).map fun p =>
      (p.1, p.2 / (lookupVal (groupbySum arr.rows _lvl) (p.1.take _lvl)).getD 0)⟩,
    ?_, ?_, ?_⟩
  · simp only [fraction_by_level]
    rw [if_neg (by omega), if_neg (by omega)]
  · intro q hq
    obtain ⟨p, hp, rfl⟩ := List.mem_map.mp hq
    obtain ⟨g, hg, rfl⟩ := List.mem_map.mp hp
    show _ / (lookupVal (groupbySum arr.rows _lvl) (g.take _lvl)).getD 0 = _
    rw [lookupVal_groupbySum (hparmem g hg), Option.getD_some]
  · intro par hpar
    have hDparnd : ((dedupF (arr.rows.map fun r => r.1.take (_lvl + 1))).filter
        fun g => g.take _lvl == par).Nodup :=
      (nodup_dedupF _).filter _
    -- the filtered output rows are the mapped filtered group keys
    rw [show ((groupbySum arr.rows (_lvl + 1)).map fun p =>
        ((p.1, p.2 / (lookupVal (groupbySum arr.rows _lvl) (p.1.take _lvl)).getD 0) :
          Key × ℚ)) =
        (dedupF (arr.rows.map fun r => r.1.take (_lvl + 1))).map fun g =>
          (g, ((arr.rows.filter fun r => r.1.take (_lvl + 1) == g).map Prod.snd).sum /
            (lookupVal (groupbySum arr.rows _lvl) (g.take _lvl)).getD 0) from by
      unfold groupbySum
      rw [List.map_map]
      rfl]
    rw [List.filter_map]
    have hcompf : ((fun (q : Key × ℚ) => q.1.take _lvl == par) ∘ fun g =>
        ((g, ((arr.rows.filter fun r => r.1.take (_lvl + 1) == g).map Prod.snd).sum /
          (lookupVal (groupbySum arr.rows _lvl) (g.take _lvl)).getD 0) : Key × ℚ)) =
        fun g => g.take _lvl == par := rfl
    rw [hcompf, List.map_map]
    have hden : ∀ g ∈ (dedupF (arr.rows.map fun r => r.1.take (_lvl + 1))).filter
        (fun g => g.take _lvl == par),
        (Prod.snd ∘ fun g =>
          ((g, ((arr.rows.filter fun r => r.1.take (_lvl + 1) == g).map Prod.snd).sum /
            (lookupVal (groupbySum arr.rows _lvl) (g.take _lvl)).getD 0) : Key × ℚ)) g =
        ((arr.rows.filter fun r => r.1.take (_lvl + 1) == g).map Prod.snd).sum /
          ((arr.rows.filter fun r => r.1.take _lvl == par).map Prod.snd).sum := by
      intro g hgf
      have hgmem := List.mem_of_mem_filter hgf
      have hgpar : g.take _lvl = par := by
        have := List.of_mem_filter hgf
        simpa using this
      show ((arr.rows.filter fun r => r.1.take (_lvl + 1) == g).map Prod.snd).sum /
          (lookupVal (groupbySum arr.rows _lvl) (g.take _lvl)).getD 0 = _
      rw [hgpar, lookupVal_groupbySum hpar, Option.getD_some]
    rw [List.map_congr_left hden, sum_map_div]
    -- numerator sums over the fibers of the parent group
    have hfibers : (((dedupF (arr.rows.map fun r => r.1.take (_lvl + 1))).filter
        fun g => g.take _lvl == par).map fun g =>
          ((arr.rows.filter fun r => r.1.take (_lvl + 1) == g).map Prod.snd).sum).sum =
        ((arr.rows.filter fun r => r.1.take _lvl == par).map Prod.snd).sum := by
      have hinner : ∀ g ∈ (dedupF (arr.rows.map fun r => r.1.take (_lvl + 1))).filter
          (fun g => g.take _lvl == par),
          ((arr.rows.filter fun r => r.1.take (_lvl + 1) == g).map Prod.snd).sum =
          (((arr.rows.filter fun r => r.1.take _lvl == par).filter
            fun r => r.1.take (_lvl + 1) == g).map Prod.snd).sum := by
        intro g hgf
        have hgpar : g.take _lvl = par := by
          have := List.of_mem_filter hgf
          simpa using this
        rw [List.filter_filter]
        congr 1
        refine congrArg _ (List.filter_congr ?_)
        intro r _
        by_cases hrg : r.1.take (_lvl + 1) = g
        · have hrp : r.1.take _lvl = par := by rw [← htt r.1, hrg, hgpar]
          simp [hrg, hrp]
        · simp [hrg]
      rw [List.map_congr_left hinner]
      refine sum_fiber _ hDparnd (fun r => r.1.take (_lvl + 1)) _ ?_
      intro r hrmem
      have hrpar : r.1.take _lvl = par := by
        have := List.of_mem_filter hrmem
        simpa using this
      refine List.mem_filter.mpr ⟨?_, ?_⟩
      · rw [mem_dedupF]
        exact List.mem_map.mpr ⟨r, List.mem_of_mem_filter hrmem, rfl⟩
      · simp [htt r.1, hrpar]
    rw [hfibers, div_self (hnz par hpar)]

/-- Witness for the amended C10 at a concrete two-level sorted series. -/
theorem fraction_by_level_fractions_witness :
    ∃ out, fraction_by_level ⟨["region", "technology"],
      [([.s "a", .s "x"], 1), ([.s "a", .s "y"], 3)]⟩ (Sum.inl 1) = .ok out := by
  obtain ⟨out, h1, -, -⟩ := fraction_by_level_fractions
    ⟨["region", "technology"], [([.s "a", .s "x"], 1), ([.s "a", .s "y"], 3)]⟩ 1
    (by
      rw [List.chain'_cons]
      exact ⟨by decide, List.chain'_singleton _⟩)
    (by decide) (by decide)
    (by
      intro par hpar
      have hp : par = [LVal.s "a"] := by
        have h2 := mem_dedupF.mp hpar
        simp [List.take] at h2
        exact h2
      subst hp
      have hfil : ((⟨["region", "technology"],
          [([LVal.s "a", LVal.s "x"], (1 : ℚ)), ([LVal.s "a", LVal.s "y"], 3)]⟩ :
            PSeries).rows.filter fun r => r.1.take 1 == [LVal.s "a"]) =
          [([LVal.s "a", LVal.s "x"], 1), ([LVal.s "a", LVal.s "y"], 3)] := rfl
      rw [hfil]
      norm_num)
  exact ⟨out, h1⟩

/-! ## `errapids.metrics`: `ScenarioGroups` -/

/-- `ScenarioGroups.idxcols` (`metrics.py`, line 97):
`"heating,EV,PV,battery".split(",")`. -/
def ScenarioGroups.idxcols : List String := strSplit "heating,EV,PV,battery" ","

/-- The data `ScenarioGroups.__getitem__` combines for one metric: the names
of the metric's own factor levels, and, per scenario, the four override
levels (heating, EV, PV, battery) with that scenario's metric series
(`metrics[metric]`, keyed by the factor levels). -/
structure SGItem where
  fnames : List String
  groups : List ((LVal × LVal × LVal × LVal) × List (Key × ℚ))
deriving DecidableEq

/-- A named pandas series with a multi-level index. -/
structure NamedSeries where
  name : String
  names : List String
  rows : List (Key × ℚ)
deriving DecidableEq

/-- `ScenarioGroups.__getitem__` (`metrics.py`, lines 137–150): per scenario
append the four override levels to the index
(`assign(**{col: lvl …}).set_index(self.idxcols, append=True)`), concatenate
the scenarios, and move the last four levels to the front
(`reorder_levels(new_order)` with
`new_order = chain(range(nlvls)[-4:], range(nlvls)[:-4])`). -/
def ScenarioGroups.getItem (metric : String) (x : SGItem) : NamedSeries :=
  let appended : List (Key × ℚ) := x.groups.flatMap fun g =>
    g.2.map fun r => (r.1 ++ [g.1.1, g.1.2.1, g.1.2.2.1, g.1.2.2.2], r.2)
  let names := x.fnames ++ ScenarioGroups.idxcols
  let nlvls := names.length
  ⟨metric, names.drop (nlvls - 4) ++ names.take (nlvls - 4),
   appended.map fun r => (r.1.drop (nlvls - 4) ++ r.1.take (nlvls - 4), r.2)⟩

theorem bind_congr_local {l : List α} {f g : α → List β}
    (h : ∀ a ∈ l, f a = g a) : l.flatMap f = l.flatMap g := by
  induction l with
  | nil => rfl
  | cons a t ih =>
    rw [List.flatMap_cons, List.flatMap_cons, h a (List.mem_cons_self a t),
      ih fun b hb => h b (List.mem_cons_of_mem _ hb)]

/-- C5: `ScenarioGroups.__getitem__` returns a series named after the metric
whose first four index levels are the scenario-override axes heating, EV,
PV, battery — in that order — followed by the metric's own factor levels,
and every row key is the scenario's four override levels followed by the
factor key of the underlying metric series row. -/
theorem sg_getitem_levels (metric : String) (x : SGItem)
    (hlen : ∀ g ∈ x.groups, ∀ r ∈ g.2, r.1.length = x.fnames.length) :
    (ScenarioGroups.getItem metric x).name = metric ∧
    (ScenarioGroups.getItem metric x).names =
      ["heating", "EV", "PV", "battery"] ++ x.fnames ∧
    (ScenarioGroups.getItem metric x).rows = x.groups.flatMap fun g =>
      g.2.map fun r => ([g.1.1, g.1.2.1, g.1.2.2.1, g.1.2.2.2] ++ r.1, r.2) := by
  have hidx : ScenarioGroups.idxcols = ["heating", "EV", "PV", "battery"] := by decide
  have hnl : (x.fnames ++ ScenarioGroups.idxcols).length - 4 = x.fnames.length := by
    rw [List.length_append, hidx]
    simp
  refine ⟨rfl, ?_, ?_⟩
  · show (x.fnames ++ ScenarioGroups.idxcols).drop _ ++
      (x.fnames ++ ScenarioGroups.idxcols).take _ = _
    rw [hnl, List.drop_left, List.take_left, hidx]
  · show (x.groups.flatMap fun g =>
        g.2.map fun r => (r.1 ++ [g.1.1, g.1.2.1, g.1.2.2.1, g.1.2.2.2], r.2)).map
          (fun r => (r.1.drop ((x.fnames ++ ScenarioGroups.idxcols).length - 4) ++
            r.1.take ((x.fnames ++ ScenarioGroups.idxcols).length - 4), r.2)) = _
    rw [hnl, List.map_flatMap]
    refine bind_congr_local ?_
    intro g hg
    rw [List.map_map]
    refine List.map_congr_left ?_
    intro r hr
    show (((r.1 ++ [g.1.1, g.1.2.1, g.1.2.2.1, g.1.2.2.2]).drop x.fnames.length) ++
      ((r.1 ++ [g.1.1, g.1.2.1, g.1.2.2.1, g.1.2.2.2]).take x.fnames.length), r.2) = _
    rw [List.drop_left' (hlen g hg r hr), List.take_left' (hlen g hg r hr)]

/-- Witness for C5 at one scenario with a single-factor series. -/
theorem sg_getitem_levels_witness :
    (ScenarioGroups.getItem "energy_cap"
      ⟨["region"], [((.s "mid", .s "low", .i 100, .i 100), [([.s "r"], 2)])]⟩).names =
      ["heating", "EV", "PV", "battery"] ++ ["region"] ∧
    (ScenarioGroups.getItem "energy_cap"
      ⟨["region"], [((.s "mid", .s "low", .i 100, .i 100), [([.s "r"], 2)])]⟩).name =
      "energy_cap" :=
  ⟨(sg_getitem_levels "energy_cap"
      ⟨["region"], [((.s "mid", .s "low", .i 100, .i 100), [([.s "r"], 2)])]⟩
      (by decide)).2.1,
   (sg_getitem_levels "energy_cap"
      ⟨["region"], [((.s "mid", .s "low", .i 100, .i 100), [([.s "r"], 2)])]⟩
      (by decide)).1⟩

/-! ## `errapids.metrics`: `Metrics.__getitem__` -/

/-- An xarray `DataArray` of the filtered result dataset: dimension names
and entries keyed by one (string) coordinate label per dimension. -/
structure DArr where
  dims : List String
  rows : List (List String × ℚ)
deriving DecidableEq

/-- `darr.sel(costs="monetary")` (`metrics.py`, line 50): fix the `costs`
dimension at the `monetary` label and drop it.  (A `costs` dimension with no
`monetary` label would raise `KeyError` in xarray; the model then keeps no
entries, which no claim exercises.) -/
def selCosts (d : DArr) : DArr :=
  let i := d.dims.indexOf "costs"
  ⟨dropPositions [i] d.dims,
   d.rows.filterMap fun r =>
     if r.1.get? i == some "monetary" then some (dropPositions [i] r.1, r.2) else none⟩

/-- `if "costs" in darr.dims: darr = darr.sel(costs="monetary")`
(`metrics.py`, lines 49–50). -/
def costsResolved (d : DArr) : DArr :=
  if d.dims.contains "costs" then selCosts d else d

/-- The pandas value `darr.to_pandas()` flows through: a series (`ndim` 1),
a frame (`ndim` 2), or the 0-dimensional value xarray hands back for a
dimensionless array. -/
inductive PVal where
  | ser (idx : PIdx) (vals : List ℚ)
  | frame (iname cname : String) (entries : List ((String × String) × ℚ))
  | zerod
deriving DecidableEq

/-- `darr.to_pandas()` (`metrics.py`, line 51): a Series for one dimension,
a DataFrame for two, and an error beyond two. -/
def toPandas (d : DArr) : Except String PVal :=
  match d.dims with
  | [] => .ok .zerod
  | [n] => .ok (.ser (.plain ⟨n, d.rows.map fun r => r.1.headD ""⟩)
      (d.rows.map Prod.snd))
  | [n, c] => .ok (.frame n c
      (d.rows.map fun r => ((r.1.headD "", (r.1.get? 1).getD ""), r.2)))
  | _ => .error "cannot convert arrays with more than 2 dimensions into pandas objects"

/-- `arr.stack()` on a DataFrame (`metrics.py`, line 54): a series over the
present (row, column) pairs, with a two-level index named by the axes. -/
def stackDf (iname cname : String) (entries : List ((String × String) × ℚ)) : PVal :=
  .ser (.multi ⟨[iname, cname], entries.map fun e => [some e.1.1, some e.1.2]⟩)
    (entries.map Prod.snd)

/-- `arr.mean(axis=1)` on a DataFrame (`metrics.py`, line 57): per row
label, the mean over the present entries (pandas skips missing cells). -/
def meanAxis1 (iname : String) (entries : List ((String × String) × ℚ)) : PVal :=
  let labels := dedupF (entries.map fun e => e.1.1)
  .ser (.plain ⟨iname, labels⟩)
    (labels.map fun l =>
      let vs := (entries.filter fun e => e.1.1 == l).map Prod.snd
      vs.sum / (vs.length : ℚ))

/-- Lines 48–57 of `metrics.py` after the cost selection, up to the
assertion: convert to pandas, stack a separate non-concatenated `carriers`
dimension into the index, and average a remaining two-dimensional
(timestep) axis away. -/
def Metrics.prepped (darr : DArr) : Except String PVal :=
  match toPandas darr with
  | .error e => .error e
  | .ok arr0 =>
    -- `if "carriers" in darr.dims and len(darr.dims) > 1: arr = arr.stack()`
    let arr1 := if darr.dims.contains "carriers" && decide (darr.dims.length > 1) then
        match arr0 with
        | .frame i c e => stackDf i c e
        | a => a
      else arr0
    -- `if arr.ndim == 2: arr = arr.mean(axis=1)`
    let arr2 := match arr1 with
      | .frame i _ e => meanAxis1 i e
      | a => a
    .ok arr2

/-- The series `Metrics.__getitem__` returns: name, parsed index, values. -/
structure OutSer where
  name : String
  index : PIdx
  vals : List ℚ
deriving DecidableEq

/-- `Metrics.__getitem__` (`metrics.py`, lines 46–63).  The
`assert arr.ndim == 1` is the check that the prepared value is a series;
the index is then parsed by `Metrics.__idx__` and the series is named after
the metric. -/
def Metrics.getItem (dst : List (String × DArr)) (metric : String) :
    Except String OutSer :=
  match (dst.find? fun p => p.1 == metric).map Prod.snd with
  | none => .error "KeyError"
  | some darr0 =>
    let darr := costsResolved darr0
    match Metrics.prepped darr with
    | .error e => .error e
    | .ok (.ser idx vals) =>
      match Metrics.idx idx with
      | .error e => .error e
      | .ok idx2 => .ok ⟨metric, idx2, vals⟩
    | .ok _ => .error "AssertionError: arr.ndim == 1"

/-- C6: for a metric present in the filtered dataset whose index shape is
supported (one or two dimensions once the cost dimension is resolved), the
preparation always yields a one-dimensional series — the
`assert arr.ndim == 1` never fails — and whenever the resulting index is one
`Metrics.__idx__` accepts, `Metrics.__getitem__` returns a one-dimensional
series named after the metric with the parsed index. -/
theorem metrics_getitem_series (dst : List (String × DArr)) (metric : String)
    (darr0 : DArr)
    (hfound : (dst.find? fun p => p.1 == metric).map Prod.snd = some darr0)
    (hdims : (costsResolved darr0).dims.length = 1 ∨
      (costsResolved darr0).dims.length = 2) :
    ∃ idx vals, Metrics.prepped (costsResolved darr0) = .ok (.ser idx vals) ∧
      ∀ idx2, Metrics.idx idx = .ok idx2 →
        Metrics.getItem dst metric = .ok ⟨metric, idx2, vals⟩ := by
  have hser : ∃ idx vals,
      Metrics.prepped (costsResolved darr0) = .ok (.ser idx vals) := by
    rcases hdims with h1 | h2
    · obtain ⟨n, hn⟩ : ∃ n, (costsResolved darr0).dims = [n] := by
        cases hd : (costsResolved darr0).dims with
        | nil => rw [hd] at h1; cases h1
        | cons a t =>
          cases t with
          | nil => exact ⟨a, rfl⟩
          | cons b t2 => rw [hd] at h1; simp at h1
      refine ⟨.plain ⟨n, (costsResolved darr0).rows.map fun r => r.1.headD ""⟩,
        (costsResolved darr0).rows.map Prod.snd, ?_⟩
      unfold Metrics.prepped toPandas
      rw [hn]
      simp
    · obtain ⟨n, c, hn⟩ : ∃ n c, (costsResolved darr0).dims = [n, c] := by
        cases hd : (costsResolved darr0).dims with
        | nil => rw [hd] at h2; cases h2
        | cons a t =>
          cases t with
          | nil => rw [hd] at h2; simp at h2
          | cons b t2 =>
            cases t2 with
            | nil => exact ⟨a, b, rfl⟩
            | cons e t3 => rw [hd] at h2; simp at h2
      by_cases hcar : (costsResolved darr0).dims.contains "carriers" = true
      · refine ⟨.multi ⟨[n, c], ((costsResolved darr0).rows.map fun r =>
            ((r.1.headD "", (r.1.get? 1).getD ""), r.2)).map fun e =>
              [some e.1.1, some e.1.2]⟩,
          ((costsResolved darr0).rows.map fun r =>
            ((r.1.headD "", (r.1.get? 1).getD ""), r.2)).map Prod.snd, ?_⟩
        rw [hn] at hcar
        have hcar2 : "carriers" = n ∨ "carriers" = c := by simpa using hcar
        unfold Metrics.prepped toPandas
        rw [hn]
        simp [hcar2, stackDf]
      · refine ⟨.plain ⟨n, dedupF (((costsResolved darr0).rows.map fun r =>
            ((r.1.headD "", (r.1.get? 1).getD ""), r.2)).map fun e => e.1.1)⟩,
          (dedupF (((costsResolved darr0).rows.map fun r =>
            ((r.1.headD "", (r.1.get? 1).getD ""), r.2)).map fun e => e.1.1)).map fun l =>
            ((((costsResolved darr0).rows.map fun r =>
              ((r.1.headD "", (r.1.get? 1).getD ""), r.2)).filter fun e =>
                e.1.1 == l).map Prod.snd).sum /
            (((((costsResolved darr0).rows.map fun r =>
              ((r.1.headD "", (r.1.get? 1).getD ""), r.2)).filter fun e =>
                e.1.1 == l).map Prod.snd).length : ℚ), ?_⟩
        rw [hn] at hcar
        have hcar2 : ¬("carriers" = n ∨ "carriers" = c) := by simpa using hcar
        unfold Metrics.prepped toPandas
        rw [hn]
        simp [hcar2, meanAxis1]
  obtain ⟨idx, vals, hprep⟩ := hser
  refine ⟨idx, vals, hprep, ?_⟩
  intro idx2 hidx
  unfold Metrics.getItem
  rw [hfound]
  simp only [hprep, hidx]

/-- Witness for C6 on a one-dimensional concatenated-index metric. -/
theorem metrics_getitem_series_witness :
    Metrics.getItem [("energy_cap", ⟨["loc_techs_energy_cap"], [(["GBR::pv"], 2)]⟩)]
      "energy_cap" =
      .ok ⟨"energy_cap", .multi ⟨["region", "technology"], [[some "GBR", some "pv"]]⟩,
        [2]⟩ := by
  obtain ⟨idx, vals, hprep, himpl⟩ := metrics_getitem_series
    [("energy_cap", ⟨["loc_techs_energy_cap"], [(["GBR::pv"], 2)]⟩)] "energy_cap"
    ⟨["loc_techs_energy_cap"], [(["GBR::pv"], 2)]⟩ (by decide) (by decide)
  have hconc : Metrics.prepped
      (costsResolved ⟨["loc_techs_energy_cap"], [(["GBR::pv"], 2)]⟩) =
      .ok (.ser (.plain ⟨"loc_techs_energy_cap", ["GBR::pv"]⟩) [2]) := by decide
  rw [hconc] at hprep
  simp only [Except.ok.injEq, PVal.ser.injEq] at hprep
  obtain ⟨h1, h2⟩ := hprep
  subst h1
  subst h2
  exact himpl (.multi ⟨["region", "technology"], [[some "GBR", some "pv"]]⟩) (by decide)

/-! ## `errapids.viz`: `qsum` and the facet aggregation -/

/-- `qsum` (`viz.py`, lines 52–60): add in quadrature,
`np.sqrt(np.square(data).sum())`. -/
noncomputable def qsum (data : List ℝ) : ℝ :=
  Real.sqrt ((data.map fun x => x ^ 2).sum)

/-- `FrozenList.difference` as used on index names (`viz.py`, 247 and 259):
the names not in `other`, keeping their order. -/
def namesDifference (names other : List String) : List String :=
  names.filter fun n => !other.contains n

/-- The group key of a row for a groupby over the named levels `keep`. -/
def projLevels (names keep : List String) (k : Key) : Key :=
  keep.filterMap fun n => k.get? (names.indexOf n)

/-- One aggregated triple of the `facets` groupby (`viz.py`, 247–249): the
metric column via `np.sum`, the `errlo`/`errhi` columns via `qsum`; pandas
Series aggregation skips missing (`NaN`) entries, and the float results are
modelled in `ℝ`. -/
noncomputable def facetsAggTriple (g : List (Option ℚ × Option ℚ × Option ℚ)) :
    ℝ × ℝ × ℝ :=
  (((g.filterMap fun b => b.1).map fun q => (q : ℝ)).sum,
   qsum ((g.filterMap fun b => b.2.1).map fun q => (q : ℝ)),
   qsum ((g.filterMap fun b => b.2.2).map fun q => (q : ℝ)))

/-- `df.groupby(df.index.names.difference([stack])).agg({name: np.sum,
"errlo": qsum, "errhi": qsum})` (`viz.py`, 247–249); group keys in
first-occurrence order. -/
noncomputable def facetsGrpd (names : List String)
    (rows : List (Key × (Option ℚ × Option ℚ × Option ℚ))) (stack : String) :
    List (Key × (ℝ × ℝ × ℝ)) :=
  let keep := namesDifference names [stack]
  (dedupF (rows.map fun r => projLevels names keep r.1)).map fun gk =>
    (gk, facetsAggTriple ((rows.filter fun r =>
      projLevels names keep r.1 == gk).map Prod.snd))

/-- C4: in the `facets` aggregation over the stacked level, the metric value
column is aggregated with an arithmetic sum while `errlo` and `errhi` are
each combined in quadrature: for every group the aggregated error is
`qsum` of the group members, `qsum` is the square root of the sum of
squares, it is non-negative, and it is invariant under permutation of the
group members. -/
theorem facets_agg_qsum :
    (∀ (names : List String) (rows : List (Key × (Option ℚ × Option ℚ × Option ℚ)))
      (stack : String), ∀ p ∈ facetsGrpd names rows stack,
        p.2 = (((((rows.filter fun r =>
            projLevels names (namesDifference names [stack]) r.1 == p.1).map
              Prod.snd).filterMap fun b => b.1).map fun q => (q : ℝ)).sum,
          qsum ((((rows.filter fun r =>
            projLevels names (namesDifference names [stack]) r.1 == p.1).map
              Prod.snd).filterMap fun b => b.2.1).map fun q => (q : ℝ)),
          qsum ((((rows.filter fun r =>
            projLevels names (namesDifference names [stack]) r.1 == p.1).map
              Prod.snd).filterMap fun b => b.2.2).map fun q => (q : ℝ)))) ∧
    (∀ l : List ℝ, qsum l = Real.sqrt ((l.map fun x => x ^ 2).sum)) ∧
    (∀ l : List ℝ, 0 ≤ qsum l) ∧
    (∀ l l' : List ℝ, l.Perm l' → qsum l = qsum l') := by
  refine ⟨?_, fun l => rfl, fun l => Real.sqrt_nonneg _, ?_⟩
  · intro names rows stack p hp
    simp only [facetsGrpd] at hp
    obtain ⟨gk, hgk, rfl⟩ := List.mem_map.mp hp
    rfl
  · intro l l' hperm
    unfold qsum
    congr 1
    exact (hperm.map fun x => x ^ 2).sum_eq

/-- Witness for C4: `qsum` is permutation-invariant and non-negative at a
concrete pair of error lists. -/
theorem facets_agg_qsum_witness :
    qsum [(3 : ℝ), 4] = qsum [4, 3] ∧ 0 ≤ qsum [(3 : ℝ), 4] :=
  ⟨facets_agg_qsum.2.2.2 [3, 4] [4, 3] (List.Perm.swap 4 3 []),
   facets_agg_qsum.2.2.1 [3, 4]⟩

/-! ## `errapids.viz`: `scenario_deltas` and `plotmanager` -/

/-- Whether a label starts (or, reversed, ends) with `token`; pandas
`.str.startswith` yields a falsy `NaN` for non-string labels. -/
def lvalMatches (v : LVal) (token : String) (reverse : Bool) : Bool :=
  match v with
  | .s str => if reverse then token.toList.isSuffixOf str.toList
      else token.toList.isPrefixOf str.toList
  | .i _ => false

/-- `lvl_filter` (`viz.py`, lines 66–95): select (or, inverted, drop) the
rows whose value at the named index level starts (or, reversed, ends) with
`token`. -/
def lvl_filter (df : DF) (lvl token : String) (invert reverse : Bool) : DF :=
  { df with rows := df.rows.filter fun r =>
      let sel := match levelVal df.names r.1 lvl with
        | some v => lvalMatches v token reverse
        | none => false
      if invert then !sel else sel }

/-- `np.isclose(x, 0)` with the default tolerances (reference 0, so only
`atol = 10⁻⁸` matters); false for a missing (`NaN`) entry. -/
def iscloseZero (o : Option ℚ) : Bool :=
  match o with
  | some x => |x| ≤ 1 / 100000000
  | none => false

/-- The loop body of `scenario_deltas` (`viz.py`, 178–188) over the
scenarios, collecting per scenario the index names and the rows: a
DataFrame result loses its all-close-to-zero rows and gains the scenario as
an appended index level; a Series result becomes the single row of a frame
indexed by the scenario name. -/
def collectDeltas (df : DF) : List String →
    Except MErr (List (List String × List (Key × (Option ℚ × Option ℚ × Option ℚ))))
  | [] => .ok []
  | sc :: rest =>
    match marginalise df sc with
    | .error e => .error e
    | .ok (.frame names3 _ rows3) =>
      match collectDeltas df rest with
      | .error e => .error e
      | .ok parts =>
        .ok ((names3 ++ ["scenario"],
          (rows3.filter fun q => !(iscloseZero q.2.1 && iscloseZero q.2.2.1 &&
            iscloseZero q.2.2.2)).map fun q => (q.1 ++ [.s sc], q.2)) :: parts)
    | .ok (.ser _ (b, lo, hi)) =>
      match collectDeltas df rest with
      | .error e => .error e
      | .ok parts =>
        .ok ((["scenario"], [([.s sc], (some b, some lo, some hi))]) :: parts)

/-- The frame type produced by `scenario_deltas`: index level names, the
column names `<metric>, errlo, errhi`, and rows of band triples. -/
structure DF3 where
  names : List String
  colnames : List String
  rows : List (Key × (Option ℚ × Option ℚ × Option ℚ))
deriving DecidableEq

/-- `scenario_deltas` (`viz.py`, lines 151–193): filter transmission
technologies, reject an empty frame, drop a redundant `carrier` level,
marginalise per scenario, concatenate, and reorder the rows along the
`scenario` level in `baselines` order (`reindex(index=list(baselines),
level="scenario")`; rows keep their relative order within a scenario). -/
def scenario_deltas (df0 : DF) (istransmission : Bool) : Except MErr DF3 :=
  let df1 := if df0.names.contains "technology" then
      lvl_filter df0 "technology" "ac_transmission" (!istransmission) false
    else df0
  if df1.rows.isEmpty then .error .emptyFrame
  else
    let df2 := if df1.names.contains "carrier" then droplevels df1 ["carrier"] else df1
    match collectDeltas df2 baselineKeys with
    | .error e => .error e
    | .ok parts =>
      let names := (parts.head?.map Prod.fst).getD []
      let allrows := parts.flatMap Prod.snd
      let pos := names.indexOf "scenario"
      .ok ⟨names, [df2.colname, "errlo", "errhi"],
        baselineKeys.flatMap fun sc =>
          allrows.filter fun r => r.1.get? pos == some (.s sc)⟩

/-- `rgroups` (`viz.py`, lines 19–28). -/
def rgroups : List (String × List String) :=
  [("nordic", ["DNK", "FIN", "NOR", "SWE"]),
   ("baltic", ["EST", "LTU", "LVA"]),
   ("poland", ["POL"]),
   ("west", ["DEU", "FRA", "NLD", "LUX"]),
   ("med", ["ESP", "ITA", "GRC", "PRT"]),
   ("isles", ["GBR", "IRL"]),
   ("balkan", ["MKD", "ROU", "SRB", "SVN", "HRV"]),
   ("landlocked", ["SVK", "HUN", "CZE"])]

/-- First value under a string key in an association list (a Python dict
lookup; the comprehension building `plotmanager._dfs` produces distinct
keys, one per metric). -/
def lookupStr (l : List (String × α)) (k : String) : Option α :=
  (l.find? fun p => p.1 == k).map Prod.snd

/-- `Series.max` over real values. -/
noncomputable def rmaxR : List ℝ → Option ℝ
  | [] => none
  | x :: l =>
    match rmaxR l with
    | none => some x
    | some y => some (max x y)

/-- A holoviews object, modelled as the data and dimensions handed to the
holoviews constructors.  Pure styling options are not modelled; the data-
derived y-limit and the stacking flag are.  Aggregated (float) data is in
`ℝ`, pre-aggregation frame data in `ℚ` with `NaN` as `none`. -/
inductive HV where
  | bars (data : DF3) (vdims kdims : List String) (stacked : Bool) (ymax : Option ℝ)
  | spread (data : DF3) (vdims kdims : List String) (ymax : Option ℝ)
  | spreadR (data : List (Key × (ℝ × ℝ × ℝ))) (vdims kdims : List String)
      (ymax : Option ℝ)
  | hlineQ (y : Option ℚ)
  | hlineR (y : Option ℝ)
  | overlay (a b : HV)
  | table (data : DF3)
  | holomap (kdim : String) (items : List (LVal × HV))
  | layoutL (cells : List HV) (cols : Nat) (height : Nat)

/-- The region handling of `facets` (`viz.py`, lines 239–245): restrict to
the countries of the chosen region group (`df.query("region in @grp")`);
without a `region` level, or with no region requested, only a log line is
emitted and the frame is unchanged. -/
def facetsRegionFilter (df : DF3) (region : String) : Except MErr DF3 :=
  if region ≠ "" ∧ df.names.contains "region" then
    match lookupStr rgroups region with
    | none => .error .regionKey
    | some grp => .ok { df with rows := df.rows.filter (fun r =>
        match levelVal df.names r.1 "region" with
        | some (.s rg) => grp.contains rg
        | _ => false) }
  else .ok df

/-- `facets` (`viz.py`, lines 196–291).  The index is plain exactly when it
has one level (the `scenario`-indexed frames of `scenario_deltas`, whose
multi-level frames always carry at least one factor level besides
`scenario`).  Group keys and facet values are kept in first-occurrence
order where pandas sorts them. -/
noncomputable def facets (df : DF3) (region stack : String) :
    Except MErr (HV × HV × HV) :=
  let name := df.colnames.headD ""
  if df.names.length = 1 then
    -- `assert df.index.name == "scenario"`
    if df.names ≠ ["scenario"] then .error .assertFailed
    else
      -- `rmax = 1.2 * df[[name, "errhi"]].sum(axis=1).max()` (row sums skip NaN)
      let rmaxv := (rmax (df.rows.map fun r => r.2.1.getD 0 + r.2.2.2.getD 0)).map
        fun m => ((6 / 5 : ℚ) * m : ℝ)
      .ok (.bars df [name] ["scenario"] false rmaxv,
        .overlay (.spread df [name, "errlo", "errhi"] ["scenario"] none)
          (.hlineQ (df.rows.head?.bind fun r => r.2.1)),
        .table df)
  else if stack ≠ "" ∧ stack ∉ df.names then .error .stackMissing
  else
    match facetsRegionFilter df region with
    | .error e => .error e
    | .ok df =>
      let keep := namesDifference df.names [stack]
      let grpd0 := facetsGrpd df.names df.rows stack
      -- `grpd.reindex(index=list(baselines), level="scenario")`
      let spos := keep.indexOf "scenario"
      let grpd := baselineKeys.flatMap fun sc =>
        grpd0.filter fun g => g.1.get? spos == some (.s sc)
      let space : ℚ := if stack = "technology" then 17 / 10 else 6 / 5
      let rmaxv := (rmaxR (grpd.map fun g => g.2.1 + g.2.2.2)).map
        fun m => (space : ℝ) * m
      -- `kdims = df.index.names.difference(["scenario"])`, rotated past `stack`
      let kdims0 := namesDifference df.names ["scenario"]
      let kdims := if stack ≠ "" then kdims0.rotateLeft (kdims0.indexOf stack + 1)
        else kdims0
      let bars := HV.bars
        { df with rows := df.rows.filter (fun r =>
            levelVal df.names r.1 "scenario" == some (.s "all")) }
        [name] kdims (stack ≠ "") rmaxv
      let facetedLvl := keep.headD ""
      let lvlVals := dedupF (grpd.filterMap fun g => g.1.head?)
      let errs := HV.holomap facetedLvl (lvlVals.map fun val =>
        (val, HV.overlay
          (.spreadR ((grpd.filter fun g => g.1.head? == some val).map fun g =>
            (g.1.drop 1, g.2)) [name, "errlo", "errhi"] ["scenario"] rmaxv)
          (.hlineR ((grpd.filter fun g => g.1.head? == some val).head?.map
            fun g => g.2.1))))
      let tbl := HV.holomap facetedLvl (lvlVals.map fun val =>
        (val, HV.table { df with rows := df.rows.filter (fun r =>
          levelVal df.names r.1 facetedLvl == some val) }))
      .ok (bars, errs, tbl)

/-- `layout` (`viz.py`, lines 294–305): the three panels in a two-column
layout scaled by `height`. -/
def layoutOf (bars errs tbl : HV) (height : Nat) : HV :=
  .layoutL [bars, errs, tbl] 2 height

/-- `plotmanager.__init__` (`viz.py`, lines 317–321): build the
metric → `scenario_deltas` frame dict once, at instantiation.  Modelled from
the spec: `metric_as_dfs` (imported from `errapids.metrics` but absent from
the sources) loads one single-column frame per metric from the data
directory; its output is taken here as the input list `loaded`. -/
def plotmanagerInit (loaded : List DF) (istransmission : Bool) :
    Except MErr (List (String × DF3)) :=
  match loaded with
  | [] => .ok []
  | df :: rest =>
    match scenario_deltas df istransmission with
    | .error e => .error e
    | .ok fr =>
      match plotmanagerInit rest istransmission with
      | .error e => .error e
      | .ok parts => .ok ((df.colname, fr) :: parts)

/-- `plotmanager.plot` (`viz.py`, lines 331–357): look the precomputed frame
up and render it through `facets` and `layout`. -/
noncomputable def plotmanagerPlot (pm : List (String × DF3))
    (metric region stack : String) (height : Nat) : Except MErr HV :=
  match lookupStr pm metric with
  | none => .error .metricKey
  | some fr =>
    match facets fr region stack with
    | .error e => .error e
    | .ok (bars, errs, tbl) => .ok (layoutOf bars errs tbl height)

/-- The dict comprehension of `plotmanager.__init__` (`viz.py`, 318–321):
its keys are the column names of the loaded frames in order, and every
loaded frame appears under its column name transformed through
`scenario_deltas` exactly as loaded. -/
theorem plotmanagerInit_keys_mem (loaded : List DF) (istransmission : Bool)
    (pm : List (String × DF3))
    (hpm : plotmanagerInit loaded istransmission = Except.ok pm) :
    pm.map Prod.fst = loaded.map DF.colname ∧
    ∀ df ∈ loaded, ∃ fr, scenario_deltas df istransmission = Except.ok fr ∧
      (df.colname, fr) ∈ pm := by
  induction loaded generalizing pm with
  | nil =>
    unfold plotmanagerInit at hpm
    simp only [Except.ok.injEq] at hpm
    subst hpm
    simp
  | cons df rest ih =>
    unfold plotmanagerInit at hpm
    cases hsd : scenario_deltas df istransmission with
    | error e => rw [hsd] at hpm; exact absurd hpm (by simp)
    | ok fr =>
      rw [hsd] at hpm
      cases hrest : plotmanagerInit rest istransmission with
      | error e => rw [hrest] at hpm; exact absurd hpm (by simp)
      | ok parts =>
        rw [hrest] at hpm
        simp only [Except.ok.injEq] at hpm
        subst hpm
        obtain ⟨hkeys, hall⟩ := ih parts hrest
        refine ⟨by simp [hkeys], ?_⟩
        intro d hd
        rcases List.mem_cons.mp hd with rfl | hd'
        · exact ⟨fr, hsd, by simp⟩
        · obtain ⟨fr', h1, h2⟩ := hall d hd'
          exact ⟨fr', h1, List.mem_cons_of_mem _ h2⟩

/-- A dict lookup under distinct keys finds the unique entry of its key. -/
theorem lookupStr_of_mem_nodup (l : List (String × α)) (k : String) (v : α)
    (hnd : (l.map Prod.fst).Nodup) (hmem : (k, v) ∈ l) :
    lookupStr l k = some v := by
  induction l with
  | nil => simp at hmem
  | cons p rest ih =>
    simp only [List.map_cons, List.nodup_cons] at hnd
    rcases List.mem_cons.mp hmem with heq | hmem'
    · rw [← heq]
      simp [lookupStr]
    · have hk : (p.1 == k) = false := by
        refine beq_eq_false_iff_ne.mpr fun h => hnd.1 ?_
        exact h ▸ List.mem_map.mpr ⟨(k, v), hmem', rfl⟩
      have hrest := ih hnd.2 hmem'
      simp only [lookupStr, List.find?] at hrest ⊢
      rw [hk]
      exact hrest

/-- C7: the program is a linear pipeline.  Whenever `plotmanager.__init__`
succeeds on the loaded metric frames (with their distinct column names), it
has transformed every loaded frame through `scenario_deltas` exactly once,
storing the result under the metric name; and `plot` only renders that
stored, precomputed frame through `facets` and `layout`, never transforming
the stored data further — its output is determined by the stored frame. -/
theorem plotmanager_pipeline (loaded : List DF) (istransmission : Bool)
    (pm : List (String × DF3)) (df : DF)
    (hpm : plotmanagerInit loaded istransmission = Except.ok pm)
    (hmem : df ∈ loaded)
    (hnodup : (loaded.map DF.colname).Nodup) :
    ∃ fr, scenario_deltas df istransmission = Except.ok fr ∧
      lookupStr pm df.colname = some fr ∧
      ∀ region stack height,
        plotmanagerPlot pm df.colname region stack height =
          match facets fr region stack with
          | .error e => .error e
          | .ok (bars, errs, tbl) => .ok (layoutOf bars errs tbl height) := by
  obtain ⟨hkeys, hall⟩ := plotmanagerInit_keys_mem loaded istransmission pm hpm
  obtain ⟨fr, hsd, hin⟩ := hall df hmem
  have hnd : (pm.map Prod.fst).Nodup := by rw [hkeys]; exact hnodup
  have hlk := lookupStr_of_mem_nodup pm df.colname fr hnd hin
  refine ⟨fr, hsd, hlk, ?_⟩
  intro region stack height
  unfold plotmanagerPlot
  rw [hlk]

/-- A concrete loaded metric frame: one row at the full scenario baseline. -/
def dfW : DF :=
  ⟨["heating", "EV", "PV", "battery", "region"],
   [([.s "mid", .s "low", .i 100, .i 100, .s "r"], 2)], "cap"⟩

/-- The `scenario_deltas` frame of `dfW`: a zero uncertainty band for each
of the seven scenarios. -/
def frW : DF3 :=
  ⟨["region", "scenario"], ["cap", "errlo", "errhi"],
   [([.s "r", .s "heating"], (some 2, some 0, some 0)),
    ([.s "r", .s "EV"], (some 2, some 0, some 0)),
    ([.s "r", .s "PV"], (some 2, some 0, some 0)),
    ([.s "r", .s "battery"], (some 2, some 0, some 0)),
    ([.s "r", .s "demand"], (some 2, some 0, some 0)),
    ([.s "r", .s "cost"], (some 2, some 0, some 0)),
    ([.s "r", .s "all"], (some 2, some 0, some 0))]⟩

/-- Witness for C7 at a one-frame load: instantiation computes the
`scenario_deltas` frame, and `plot` renders exactly that stored frame. -/
theorem plotmanager_pipeline_witness :
    ∃ fr, scenario_deltas dfW false = Except.ok fr ∧
      lookupStr [("cap", frW)] dfW.colname = some fr ∧
      ∀ region stack height,
        plotmanagerPlot [("cap", frW)] dfW.colname region stack height =
          match facets fr region stack with
          | .error e => .error e
          | .ok (bars, errs, tbl) => .ok (layoutOf bars errs tbl height) :=
  plotmanager_pipeline [dfW] false [("cap", frW)] dfW
    (by
      have hone : scenario_deltas dfW false = Except.ok frW := by
        simp [scenario_deltas, dfW, frW, lvl_filter, collectDeltas, iscloseZero,
          marginalise, marginalFrameRows, pinnedDf, queryPins, droplevels,
          dropPositions, suffixKeys, dedupF, dedupAux, groupVals, bandOf,
          lookupVal, rmin, rmax, osub, oabs, levelVal, unpinnedOf, pinsOf,
          baselineKeys, baselines, _isgrouped, baselineOf, scalarBaseline,
          List.filter, List.indexOf, List.findIdx, List.findIdx.go, List.enum,
          List.enumFrom, List.flatMap, List.getElem?_cons_succ,
          List.getElem?_cons_zero, min_def, max_def]
        norm_num
        decide
      unfold plotmanagerInit
      rw [hone]
      rfl)
    (by simp) (by simp [dfW])
